import Mathlib

/-!
# Verification of the Codex-Bot strategy engine

A shallow embedding, over `ℚ`, of the strategy simulation and portfolio
construction core of the repository:

* `broker_bot/features.py` — the feature pipeline (`build_features`,
  `_attach_market_features`, `build_labels`);
* `broker_bot/model.py` — row selection for `train_model` / `predict_return`
  (the random-forest regressor itself is an external sklearn component and is
  abstracted as an arbitrary function from training pairs to a predictor);
* `broker_bot/backtest.py` — `_inverse_vol_weights`, `_regime_leverage` and
  the walk-forward loop `run_backtest`;
* `broker_bot/trader.py` — `_target_weights`, `_compute_drawdown` and the
  drawdown-throttle fragment of `rebalance_portfolio`.

Modelling conventions:

* pandas `NaN` cells are modelled by `Option ℚ`: `none` is `NaN`, and
  `dropna` is a filter on `isSome`;
* floats are modelled by `ℚ`.  The two places where the source takes a real
  square root (the 20-day return standard deviation `vol_20d`, and the SPY
  volatility used for volatility targeting) are handled as follows: `vol_20d`
  carries the sample *variance* of the 20-day window (the square of the
  pandas value; an irrational square root is not representable in `ℚ`, and
  every theorem below depends only on this field being defined and
  non-negative, never on its magnitude), and the SPY volatility is obtained
  through an abstract square-root function passed to the backtest;
* Python's seeded `random.Random(sim_seed).random()` call sequence is
  modelled as a stream `ℕ → ℚ` consumed left to right, and
  `pandas.Period` bucketing of timestamps is an abstract function `ℚ → ℤ`;
* timestamps are `ℚ` (days); `pd.Timedelta(days = d)` is addition of `d`.
-/

set_option maxHeartbeats 1600000
set_option maxRecDepth 1000000

namespace BrokerBot

/-! ## List preliminaries -/

/-- Insert `x` into `l` in front of the first element `y` with `le x y`. -/
def isortInsert {α : Type} (le : α → α → Bool) (x : α) : List α → List α
  | [] => [x]
  | y :: ys => if le x y then x :: y :: ys else y :: isortInsert le x ys

/-- Insertion sort by a boolean "less or equal" relation.  Used to model
`DataFrame.sort_values` (all sort keys used by the source are unique, so
stability is irrelevant). -/
def isortBy {α : Type} (le : α → α → Bool) : List α → List α
  | [] => []
  | x :: xs => isortInsert le x (isortBy le xs)

/-- `some` iff every element is `some`; the pandas rule that an aggregate of a
window containing a `NaN` is `NaN`. -/
def allSome : List (Option ℚ) → Option (List ℚ)
  | [] => some []
  | none :: _ => none
  | some x :: rest => (allSome rest).map (x :: ·)

/-- Arithmetic mean (pandas `rolling(w).mean()` applied to a full window). -/
def qmean (xs : List ℚ) : ℚ := xs.sum / xs.length

/-- Sample variance with one delta degree of freedom — the square of pandas
`rolling(w).std()` on a full window. -/
def sampleVar (xs : List ℚ) : ℚ :=
  if xs.length ≤ 1 then 0
  else
    let n : ℚ := xs.length
    let m := xs.sum / n
    (xs.map (fun x => (x - m) ^ 2)).sum / (n - 1)

/-- pandas `Series.pct_change(k)` evaluated at position `i` of the series
whose values are `closes`: `NaN` for the first `k` positions, otherwise
`(closes[i] - closes[i-k]) / closes[i-k]`. -/
def pctChange (closes : List ℚ) (k i : ℕ) : Option ℚ :=
  if k ≤ i ∧ i < closes.length then
    some ((closes.getD i 0 - closes.getD (i - k) 0) / closes.getD (i - k) 0)
  else none

/-- The window `[xs[i], xs[i-1], …, xs[i-w+1]]` read by `rolling(w)` at `i`. -/
def windowList (xs : List (Option ℚ)) (w i : ℕ) : List (Option ℚ) :=
  (List.range w).map (fun j => xs.getD (i - j) none)

/-- pandas `rolling(w)` with aggregate `g` at position `i`: defined when the
position has `w` predecessors inside the series and no window cell is `NaN`.
(`g` is invariant under the order of the window for every aggregate used.) -/
def rollingApply (g : List ℚ → ℚ) (xs : List (Option ℚ)) (w i : ℕ) : Option ℚ :=
  if w ≤ i + 1 ∧ i < xs.length then (allSome (windowList xs w i)).map g
  else none

/-- The last `k` elements of a list (`.iloc[-1]` of a rolling aggregate reads
the trailing window). -/
def lastN (k : ℕ) (l : List ℚ) : List ℚ := l.drop (l.length - k)

/-- Maximum of a list of rationals with a default for the empty list
(Python `max(equity_curve) if equity_curve else equity`). -/
def listMaxD (l : List ℚ) (d : ℚ) : ℚ :=
  match l with
  | [] => d
  | x :: xs => xs.foldl max x

/-! ## Weight maps (Python `dict[str, float]`)

A Python dict is modelled as an association list with unique keys kept in
insertion order; assigning to an existing key replaces its value in place,
assigning a fresh key appends. -/

/-- One `weights[symbol] = value` assignment. -/
def dinsert (m : List (String × ℚ)) (k : String) (v : ℚ) : List (String × ℚ) :=
  if m.any (fun p => p.1 = k) then
    m.map (fun p => if p.1 = k then (k, v) else p)
  else m ++ [(k, v)]

/-- `weights.get(symbol, 0.0)`. -/
def wlookup (m : List (String × ℚ)) (k : String) : ℚ :=
  match m.find? (fun p => p.1 = k) with
  | some p => p.2
  | none => 0

/-- `sum(abs(w) for w in weights.values())`. -/
def sumAbs (m : List (String × ℚ)) : ℚ := (m.map (fun p => |p.2|)).sum

/-- Sum of the positive weights (the long book of a weight map). -/
def posSum (m : List (String × ℚ)) : ℚ := (m.map (fun p => max p.2 0)).sum

/-- Sum of the magnitudes of the negative weights (the short book). -/
def negSum (m : List (String × ℚ)) : ℚ := (m.map (fun p => max (-p.2) 0)).sum

/-! ## Data model -/

/-- A daily price bar (`features.py` reads `Symbol`, `timestamp`, `high`,
`low`, `close`, `volume`). -/
structure Bar where
  symbol : String
  timestamp : ℚ
  high : ℚ
  low : ℚ
  close : ℚ
  volume : ℚ
deriving DecidableEq, Repr, Inhabited

/-- One row of the feature frame produced by `build_features`.  `Option`
fields are pandas cells that may be `NaN`.  `vol_20d` carries the sample
variance of the 20-day daily-return window (see the module comment). -/
structure FeatureRow where
  symbol : String
  timestamp : ℚ
  close : ℚ
  return_1d : Option ℚ
  return_5d : Option ℚ
  return_10d : Option ℚ
  mom_20d : Option ℚ
  vol_20d : Option ℚ
  range_5d : Option ℚ
  dollar_vol_20d : Option ℚ
  market_return_1d : Option ℚ
  market_mom_20d : Option ℚ
  rank_mom_20d : Option ℚ
deriving DecidableEq, Repr, Inhabited

/-! ## Feature pipeline (`features.py`) -/

/-- `df.sort_values(["Symbol", "timestamp"])`. -/
def sortBars (bars : List Bar) : List Bar :=
  isortBy (fun a b =>
    decide (a.symbol < b.symbol) || (a.symbol == b.symbol && decide (a.timestamp ≤ b.timestamp)))
    bars

/-- The per-symbol rolling features of `build_features`, for one symbol's
time-sorted bars; market features and the cross-sectional rank are attached
later and start out as `NaN`. -/
def symbolRows (sbars : List Bar) : List FeatureRow :=
  let closes := sbars.map (·.close)
  let pc1 := (List.range sbars.length).map (fun i => pctChange closes 1 i)
  let ranges := sbars.map (fun b => some ((b.high - b.low) / b.close))
  let dvs := sbars.map (fun b => some (b.close * b.volume))
  (List.range sbars.length).map (fun i =>
    { symbol := (sbars.getD i default).symbol
      timestamp := (sbars.getD i default).timestamp
      close := closes.getD i 0
      return_1d := pctChange closes 1 i
      return_5d := pctChange closes 5 i
      return_10d := pctChange closes 10 i
      mom_20d := pctChange closes 20 i
      vol_20d := rollingApply sampleVar pc1 20 i
      range_5d := rollingApply qmean ranges 5 i
      dollar_vol_20d := rollingApply qmean dvs 20 i
      market_return_1d := none
      market_mom_20d := none
      rank_mom_20d := none })

/-- Position of the first bar of a series carrying timestamp `t` (the merge
key lookup of `_attach_market_features`; timestamps are unique per symbol in
every input considered). -/
def tsIndex : List Bar → ℚ → Option ℕ
  | [], _ => none
  | b :: rest, t => if b.timestamp = t then some 0 else (tsIndex rest t).map (· + 1)

/-- The pair `(market_return_1d, market_mom_20d)` joined onto timestamp `t`
by `_attach_market_features`; `(none, none)` when the benchmark has no bar at
`t` (an unmatched left join). -/
def marketFeatsAt (msbars : List Bar) (t : ℚ) : Option ℚ × Option ℚ :=
  let mcloses := msbars.map (·.close)
  match tsIndex msbars t with
  | some i => (pctChange mcloses 1 i, pctChange mcloses 20 i)
  | none => (none, none)

/-- pandas `rank(pct=True)` (average method) of the value `m` among the
defined values `moms` of its group. -/
def rankPct (m : ℚ) (moms : List ℚ) : ℚ :=
  let less : ℚ := (moms.filter (fun x => x < m)).length
  let eq : ℚ := (moms.filter (fun x => x = m)).length
  (less + (eq + 1) / 2) / moms.length

/-- The nine columns of `FEATURE_COLUMNS`, in source order. -/
def featOpts (r : FeatureRow) : List (Option ℚ) :=
  [r.return_1d, r.return_5d, r.return_10d, r.mom_20d, r.vol_20d, r.range_5d,
   r.market_return_1d, r.market_mom_20d, r.rank_mom_20d]

/-- `df.dropna(subset=FEATURE_COLUMNS)` row predicate. -/
def featuresDefined (r : FeatureRow) : Bool :=
  (featOpts r).all (·.isSome)

/-- `build_features`: sort by (symbol, timestamp), compute per-symbol rolling
features, left-join the benchmark features by timestamp (raising if the
benchmark symbol has no bars), attach the cross-sectional momentum rank
(`0.5` for the benchmark row), and drop rows with any undefined feature. -/
def buildFeatures (bars : List Bar) (mkt : String) : Except String (List FeatureRow) :=
  let sorted := sortBars bars
  let syms := (sorted.map (·.symbol)).dedup
  let base := (syms.map (fun s => symbolRows (sorted.filter (fun b => b.symbol = s)))).flatten
  let msbars := sorted.filter (fun b => b.symbol = mkt)
  if msbars = [] then
    .error ("Market symbol " ++ mkt ++ " not found in bars. Include it in the universe.")
  else
    let merged := base.map (fun r =>
      let mf := marketFeatsAt msbars r.timestamp
      { r with market_return_1d := mf.1, market_mom_20d := mf.2 })
    let ranked := merged.map (fun r =>
      if r.symbol = mkt then { r with rank_mom_20d := some (1 / 2) }
      else
        let moms := (merged.filter (fun x => x.symbol ≠ mkt ∧ x.timestamp = r.timestamp)).filterMap
          (·.mom_20d)
        { r with rank_mom_20d := r.mom_20d.map (fun m => rankPct m moms) })
    .ok (ranked.filter featuresDefined)

/-- `build_labels`: per symbol group (groups taken in frame order, which is
symbol-contiguous everywhere `train_model` is called),
`close.pct_change(h).shift(-h)` — the label of the row at in-group position
`p` is the forward return to the row `h` positions later in the same group,
`NaN` when that row does not exist. -/
def buildLabels (rows : List FeatureRow) (h : ℕ) : List (FeatureRow × Option ℚ) :=
  let syms := (rows.map (·.symbol)).dedup
  (syms.map (fun s =>
    let g := rows.filter (fun r => r.symbol = s)
    (List.range g.length).map (fun p =>
      (g.getD p default,
       if p + h < g.length then
         some (((g.getD (p + h) default).close - (g.getD p default).close) /
           (g.getD p default).close)
       else none)))).flatten

/-! ## Forecast model (`model.py`)

The sklearn `RandomForestRegressor` is an external component: it is
abstracted as an arbitrary total function `fit` from the list of
`(feature vector, label)` training pairs to a predictor `List ℚ → ℚ`.
What is embedded from the source is exactly the row and column selection
feeding it. -/

/-- `FEATURE_COLUMNS` values of a row, in source order, as passed to the
regressor.  Every row reaching this function has survived
`dropna(subset=FEATURE_COLUMNS)`, so the `getD` defaults are never read. -/
def featVec (r : FeatureRow) : List ℚ := (featOpts r).map (fun o => o.getD 0)

/-- The `(X, y)` pairs assembled by `train_model`: labels from `build_labels`
on the passed frame, rows restricted to those with every feature defined and
a defined label. -/
def trainData (rows : List FeatureRow) (h : ℕ) : List (List ℚ × ℚ) :=
  ((buildLabels rows h).filter (fun p => featuresDefined p.1 && p.2.isSome)).map
    (fun p => (featVec p.1, p.2.getD 0))

/-- `train_model` restricted to its data flow: fit the abstract regressor on
the selected training pairs (the in-sample metrics it also returns are
observability only and unused by every caller in the core). -/
def trainModel (rows : List FeatureRow) (h : ℕ)
    (fit : List (List ℚ × ℚ) → (List ℚ → ℚ)) : List ℚ → ℚ :=
  fit (trainData rows h)

/-- `predict_return`: apply the model to each row's feature vector. -/
def predictReturn (model : List ℚ → ℚ) (rows : List FeatureRow) : List ℚ :=
  rows.map (fun r => model (featVec r))

/-! ## Portfolio constructors -/

/-- A scored candidate row as consumed by `_inverse_vol_weights`
(`Symbol`, `pred_return` and `vol_20d` columns of the day's slice).  `vol` is
the defined `vol_20d` value of the row (rows reaching the weight constructor
have survived the feature `dropna`). -/
structure SRow where
  symbol : String
  pred : ℚ
  vol : ℚ
deriving DecidableEq, Repr, Inhabited

/-- `backtest._inverse_vol_weights`.  Long candidates: `pred_return ≥
min_long_return`, descending, first `top_k`; short candidates (when shorting
is allowed): `pred_return ≤ max_short_return`, ascending, first `top_k`.
Gross leverage is split evenly across the books when shorting is allowed;
inverse-volatility weights inside a book, each capped at `max_position_pct`,
shorts entered with negative sign (overwriting an equal long symbol, as the
Python dict assignment does). -/
def inverseVolWeights (slice : List SRow) (topk : ℕ)
    (minLong maxShort g cap : ℚ) (allowShorts : Bool) : List (String × ℚ) :=
  if slice = [] then []
  else
    let longs := (isortBy (fun a b => decide (b.pred ≤ a.pred))
      (slice.filter (fun r => minLong ≤ r.pred))).take topk
    let shorts := if allowShorts then
        (isortBy (fun a b => decide (a.pred ≤ b.pred))
          (slice.filter (fun r => r.pred ≤ maxShort))).take topk
      else []
    let longGross := if allowShorts then g / 2 else g
    let shortGross := if allowShorts then g / 2 else 0
    let m1 :=
      if longs ≠ [] then
        let total := (longs.map (fun r => 1 / max r.vol (1 / 1000000))).sum
        longs.foldl
          (fun m r => dinsert m r.symbol
            (min cap (1 / max r.vol (1 / 1000000) / total * longGross))) []
      else []
    if shorts ≠ [] then
      let total := (shorts.map (fun r => 1 / max r.vol (1 / 1000000))).sum
      shorts.foldl
        (fun m r => dinsert m r.symbol
          (-min cap (1 / max r.vol (1 / 1000000) / total * shortGross))) m1
    else m1

/-- A live `Signal` (`trader.py`): symbol, predicted return, side
(`"LONG"`, `"SHORT"` or `"HOLD"`), optional 20-day volatility. -/
structure Signal where
  symbol : String
  score : ℚ
  side : String
  vol : Option ℚ
deriving DecidableEq, Repr, Inhabited

/-- `max(s.vol or 1e-6, 1e-6)`: Python `or` replaces a `None` or `0.0`
volatility by `1e-6` before the outer flooring. -/
def effVol (v : Option ℚ) : ℚ :=
  max (match v with
       | none => 1 / 1000000
       | some x => if x = 0 then 1 / 1000000 else x)
    (1 / 1000000)

/-- `trader._target_weights`: first `top_k` LONG signals and (when shorting
is allowed) first `top_k` SHORT signals, in list order; even gross split when
shorting is allowed; inverse-volatility sizing with the per-position cap. -/
def targetWeights (signals : List Signal) (g cap : ℚ) (topk : ℕ)
    (allowShorts : Bool) : List (String × ℚ) :=
  let longs := (signals.filter (fun s => s.side = "LONG")).take topk
  let shorts := if allowShorts then (signals.filter (fun s => s.side = "SHORT")).take topk
    else []
  if longs = [] ∧ shorts = [] then []
  else
    let longGross := if allowShorts then g / 2 else g
    let shortGross := if allowShorts then g / 2 else 0
    let m1 :=
      if longs ≠ [] then
        let total := (longs.map (fun s => 1 / effVol s.vol)).sum
        longs.foldl
          (fun m s => dinsert m s.symbol (min cap (1 / effVol s.vol / total * longGross))) []
      else []
    if shorts ≠ [] then
      let total := (shorts.map (fun s => 1 / effVol s.vol)).sum
      shorts.foldl
        (fun m s => dinsert m s.symbol (-min cap (1 / effVol s.vol / total * shortGross))) m1
    else m1

/-! ## Risk governors -/

/-- `_regime_leverage` (identical in `backtest.py` and `trader.py`): bear
leverage when the 50-day moving average of the benchmark closes is below the
200-day moving average, full gross leverage otherwise or when fewer than 200
closes exist. -/
def regimeLeverage (closes : List ℚ) (g bear : ℚ) : ℚ :=
  if closes = [] then g
  else if closes.length < 200 then g
  else if qmean (lastN 50 closes) < qmean (lastN 200 closes) then bear
  else g

/-- `trader._compute_drawdown`: maximum peak-to-trough drawdown of a list of
equities, scanning left to right with a running peak. -/
def computeDrawdown (values : List ℚ) : ℚ :=
  match values with
  | [] => 0
  | v0 :: rest =>
    (rest.foldl
      (fun (st : ℚ × ℚ) v =>
        let peak := if st.1 < v then v else st.1
        let dd := if 0 < peak then (peak - v) / peak else 0
        (peak, if st.2 < dd then dd else st.2))
      (v0, 0)).2

/-- The common scaling rule of both drawdown throttles: when the measured
drawdown exceeds `maxDD`, multiply leverage by `max (maxDD / dd) 0.1`. -/
def ddScaledLeverage (maxDD dd lev : ℚ) : ℚ :=
  if maxDD < dd then lev * max (maxDD / dd) (1 / 10) else lev

/-- The drawdown measure of the backtest guardrail (`run_backtest` lines
167–169): the *current* drawdown of `equity` below the peak of the entire
equity curve accumulated so far (zero for a non-positive peak). -/
def currentDrawdown (curve : List ℚ) (equity : ℚ) : ℚ :=
  let peak := listMaxD curve equity
  if 0 < peak then (peak - equity) / peak else 0

/-- The backtest drawdown guardrail (`run_backtest` lines 166–171): active
only when `max_drawdown > 0`. -/
def backtestThrottle (curve : List ℚ) (equity maxDD lev : ℚ) : ℚ :=
  if 0 < maxDD then ddScaledLeverage maxDD (currentDrawdown curve equity) lev
  else lev

/-- The live drawdown guardrail (`rebalance_portfolio` lines 189–193):
the drawdown is `_compute_drawdown` over the trailing equity snapshots read
from persistence (zero when fewer than two snapshots exist), and the scaling
fires only when `max_drawdown > 0`. -/
def liveThrottle (equities : List ℚ) (maxDD lev : ℚ) : ℚ :=
  let dd := if 1 < equities.length then computeDrawdown equities else 0
  if 0 < maxDD then ddScaledLeverage maxDD dd lev else lev

/-- Refinement target for claim C5, modelled from the spec's words: "given
the trailing equity curve, compute max drawdown over a lookback window; if it
exceeds `max_drawdown`, leverage is scaled by `max(max_drawdown/drawdown,
0.1)`" — i.e. the windowed *maximum* drawdown, in both paths. -/
def specThrottle (trailing : List ℚ) (maxDD lev : ℚ) : ℚ :=
  ddScaledLeverage maxDD (computeDrawdown trailing) lev

/-! ## Walk-forward backtest (`backtest.py`, `run_backtest`) -/

/-- The `StrategyParameters` of `run_backtest`, in source order.  The
rebalance frequency does not appear here: `to_period(rebalance_frequency)` is
the abstract bucketing function threaded through the simulator. -/
structure BTParams where
  horizon_days : ℕ
  min_long_return : ℚ
  max_short_return : ℚ
  gross_leverage : ℚ
  top_k : ℕ
  max_position_pct : ℚ
  tcost_bps : ℚ
  bear_leverage : ℚ
  lookback_days : ℚ
  min_price : ℚ
  min_dollar_vol : ℚ
  vol_target : ℚ
  vol_window : ℕ
  max_drawdown : ℚ
  min_leverage : ℚ
  miss_rebalance_prob : ℚ
  rebalance_delay_days : ℚ
deriving Repr

/-- A feature row together with its `next_return` column (the realized
forward return over the horizon), as the simulator's frame carries it. -/
abbrev NRow := FeatureRow × Option ℚ

/-- `features.groupby("Symbol")["close"].pct_change(horizon).shift(-horizon)`
(line 89): rows are symbol-contiguous, so groups are the per-symbol sublists
in frame order and the column pairs each row with the forward return to the
row `horizon` positions later in its group. -/
def addNextReturn (rows : List FeatureRow) (h : ℕ) : List NRow :=
  buildLabels rows h

/-- The day's eligible slice (lines 112–118): rows at timestamp `ts`, the
`min_price` and `min_dollar_vol` gates when enabled (a `NaN` dollar volume
fails the comparison, as in pandas), then `dropna(subset=["next_return"])`. -/
def sliceFor (rowsN : List NRow) (p : BTParams) (ts : ℚ) : List NRow :=
  let s0 := rowsN.filter (fun r => r.1.timestamp = ts)
  let s1 := if 0 < p.min_price then s0.filter (fun r => p.min_price ≤ r.1.close) else s0
  let s2 := if 0 < p.min_dollar_vol then
      s1.filter (fun r => match r.1.dollar_vol_20d with
        | some v => decide (p.min_dollar_vol ≤ v)
        | none => false)
    else s1
  s2.filter (fun r => r.2.isSome)

/-- The walk-forward training frame for rebalance date `ts` (lines 143–151):
feature rows with `ts - lookback_days ≤ timestamp < ts`, under the same price
and dollar-volume gates. -/
def trainWindow (rowsN : List NRow) (p : BTParams) (ts : ℚ) : List FeatureRow :=
  let t0 := rowsN.filter (fun r => r.1.timestamp < ts ∧ ts - p.lookback_days ≤ r.1.timestamp)
  let t1 := if 0 < p.min_price then t0.filter (fun r => p.min_price ≤ r.1.close) else t0
  let t2 := if 0 < p.min_dollar_vol then
      t1.filter (fun r => match r.1.dollar_vol_20d with
        | some v => decide (p.min_dollar_vol ≤ v)
        | none => false)
    else t1
  t2.map (·.1)

/-- The model predictions attached to the day's slice on an executed
rebalance (lines 152–156): retrain on the rolling window and predict, or an
all-zero column when the window is empty.  A function of the feature frame,
the parameters, the abstract regressor and the date only — independent of
the simulator's mutable state and of the seeded miss/delay stream. -/
def dayPreds (rowsN : List NRow) (p : BTParams)
    (fit : List (List ℚ × ℚ) → (List ℚ → ℚ)) (ts : ℚ) : List ℚ :=
  let tw := trainWindow rowsN p ts
  let slice := sliceFor rowsN p ts
  if tw ≠ [] then predictReturn (trainModel tw p.horizon_days fit) (slice.map (·.1))
  else slice.map (fun _ => 0)

/-- The day's slice scored for the weight constructor: `Symbol`,
`pred_return` and `vol_20d` columns (the latter defined for every surviving
feature row, so the `getD` default is never read). -/
def scoredFor (rowsN : List NRow) (p : BTParams)
    (fit : List (List ℚ × ℚ) → (List ℚ → ℚ)) (ts : ℚ) : List SRow :=
  ((sliceFor rowsN p ts).zip (dayPreds rowsN p fit ts)).map
    (fun q => { symbol := q.1.1.symbol, pred := q.2, vol := q.1.1.vol_20d.getD 0 })

/-- The effective leverage of an executed rebalance (lines 139–173): regime
leverage from the benchmark bars up to `ts`, then volatility targeting on the
benchmark (through the abstract square root `sqrtq`), then the drawdown
guardrail over the equity curve accumulated so far, then the clamp to
`[min_leverage, gross_leverage]`. -/
def levFor (bars : List Bar) (p : BTParams) (sqrtq : ℚ → ℚ)
    (equity : ℚ) (curve : List ℚ) (ts : ℚ) : ℚ :=
  let spyBars := bars.filter (fun b => b.symbol = "SPY" ∧ b.timestamp ≤ ts)
  let spyCloses := (isortBy (fun a b => decide (a.timestamp ≤ b.timestamp)) spyBars).map (·.close)
  let lev0 := regimeLeverage spyCloses p.gross_leverage p.bear_leverage
  let spyRets := (List.range spyCloses.length).filterMap (fun i => pctChange spyCloses 1 i)
  let lev1 :=
    if 0 < p.vol_target ∧ p.vol_window ≤ spyRets.length then
      let spyVol := sqrtq (sampleVar (lastN p.vol_window spyRets))
      if 0 < spyVol then min lev0 (lev0 * min 1 (p.vol_target / spyVol)) else lev0
    else lev0
  let lev2 := backtestThrottle curve equity p.max_drawdown lev1
  max p.min_leverage (min lev2 p.gross_leverage)

/-- `turnover = sum(abs(new.get(s,0) - old.get(s,0)) for s in keys(new) ∪ keys(old))`. -/
def turnoverOf (nw old : List (String × ℚ)) : ℚ :=
  (((nw.map (·.1)) ++ (old.map (·.1))).dedup.map
    (fun s => |wlookup nw s - wlookup old s|)).sum

/-- The simulator's mutable state.  `rets`, `curve` and the Python locals
`current_weights`, `equity`, `pending_rebalance_dt` and the RNG position `k`
are exactly the source's state; `rebalCount`, `predLog` and `wLog` are ghost
observations (they influence nothing computed and exist only so that
theorems can speak about which days executed a rebalance, which predictions
they consumed, and which weight map each produced at which leverage). -/
structure BTState where
  weights : List (String × ℚ)
  equity : ℚ
  curve : List ℚ
  pending : Option ℚ
  k : ℕ
  rets : List (ℚ × ℚ)
  rebalCount : ℕ
  predLog : List (ℚ × List ℚ)
  wLog : List (ℚ × ℚ × List (String × ℚ))
deriving Repr

/-- The initial simulator state (lines 101–108). -/
def btInit : BTState :=
  { weights := [], equity := 1, curve := [1], pending := none, k := 0,
    rets := [], rebalCount := 0, predLog := [], wLog := [] }

/-- One iteration of the day loop of `run_backtest` (lines 110–201). -/
def btStep (rowsN : List NRow) (bars : List Bar) (p : BTParams)
    (fit : List (List ℚ × ℚ) → (List ℚ → ℚ)) (sqrtq : ℚ → ℚ)
    (rng : ℕ → ℚ) (rdates : List ℚ) (st : BTState) (ts : ℚ) : BTState :=
  let slice := sliceFor rowsN p ts
  if slice = [] then
    -- no eligible symbols: flat return, weights persist (lines 120–124)
    { st with rets := st.rets ++ [(ts, 0)], curve := st.curve ++ [st.equity] }
  else
    let sched0 := decide (ts ∈ rdates)
    let matured := match st.pending with
      | some pd => decide (pd ≤ ts)
      | none => false
    let sched1 := sched0 || matured
    let pending1 := if matured then none else st.pending
    -- stochastic miss model (lines 131–136); the RNG is consumed only when
    -- a rebalance is scheduled and the miss probability is positive
    let consume := sched1 && decide (0 < p.miss_rebalance_prob)
    let missed := consume && decide (rng st.k < p.miss_rebalance_prob)
    let k1 := if consume then st.k + 1 else st.k
    let pending2 := if missed ∧ 0 < p.rebalance_delay_days then
        some (ts + p.rebalance_delay_days)
      else pending1
    let sched2 := sched1 && !missed
    if sched2 then
      let lev := levFor bars p sqrtq st.equity st.curve ts
      let nw := inverseVolWeights (scoredFor rowsN p fit ts) p.top_k
        p.min_long_return p.max_short_return lev p.max_position_pct true
      let cost := p.tcost_bps / 10000 * turnoverOf nw st.weights
      let ret := (slice.foldl (fun a r => a + wlookup nw r.1.symbol * r.2.getD 0) 0) - cost
      let equity1 := st.equity * (1 + ret)
      { weights := nw, equity := equity1, curve := st.curve ++ [equity1],
        pending := pending2, k := k1, rets := st.rets ++ [(ts, ret)],
        rebalCount := st.rebalCount + 1,
        predLog := st.predLog ++ [(ts, dayPreds rowsN p fit ts)],
        wLog := st.wLog ++ [(ts, lev, nw)] }
    else
      let ret := (slice.foldl (fun a r => a + wlookup st.weights r.1.symbol * r.2.getD 0) 0) - 0
      let equity1 := st.equity * (1 + ret)
      { st with
          equity := equity1
          curve := st.curve ++ [equity1]
          pending := pending2
          k := k1
          rets := st.rets ++ [(ts, ret)] }

/-- The rebalance schedule (lines 96–99): the latest trading day of each
period bucket. -/
def rebalanceDates (dates : List ℚ) (bucket : ℚ → ℤ) : List ℚ :=
  ((dates.map bucket).dedup).map (fun b => listMaxD (dates.filter (fun t => bucket t = b)) 0)

/-- The sorted distinct trading days of the simulator's feature frame
(line 91). -/
def featureDates (rowsN : List NRow) : List ℚ :=
  isortBy (fun a b => decide (a ≤ b)) ((rowsN.map (·.1.timestamp)).dedup)

/-- The simulator's feature frame (lines 87–89): features without the
benchmark rows, each paired with its `next_return` column. -/
def btRowsOf (feats : List FeatureRow) (h : ℕ) : List NRow :=
  addNextReturn (feats.filter (fun r => r.symbol ≠ "SPY")) h

/-- `run_backtest` up to its final state: build features, drop the benchmark
rows, attach `next_return`, fail fast on fewer than 60 distinct trading
days, then fold the day loop over the sorted days. -/
def btFinalState (bars : List Bar) (p : BTParams)
    (fit : List (List ℚ × ℚ) → (List ℚ → ℚ)) (bucket : ℚ → ℤ)
    (sqrtq : ℚ → ℚ) (rng : ℕ → ℚ) : Except String BTState :=
  match buildFeatures bars "SPY" with
  | .error e => .error e
  | .ok feats =>
    let rowsN := btRowsOf feats p.horizon_days
    let dates := featureDates rowsN
    if dates.length < 60 then .error "Not enough data to backtest."
    else
      let rdates := rebalanceDates dates bucket
      .ok (dates.foldl (btStep rowsN bars p fit sqrtq rng rdates) btInit)

/-- The result frame (lines 203–205): daily strategy returns in time order
with `strategy_equity` the running product of `1 + strategy_return`. -/
def mkResult (rets : List (ℚ × ℚ)) : List (ℚ × ℚ × ℚ) :=
  let sorted := isortBy (fun a b => decide (a.1 ≤ b.1)) rets
  (sorted.foldl
    (fun (acc : ℚ × List (ℚ × ℚ × ℚ)) r =>
      let e := acc.1 * (1 + r.2)
      (e, acc.2 ++ [(r.1, r.2, e)]))
    (1, [])).2

/-- `run_backtest`: the equity-curve frame, or the propagated error. -/
def runBacktest (bars : List Bar) (p : BTParams)
    (fit : List (List ℚ × ℚ) → (List ℚ → ℚ)) (bucket : ℚ → ℤ)
    (sqrtq : ℚ → ℚ) (rng : ℕ → ℚ) : Except String (List (ℚ × ℚ × ℚ)) :=
  (btFinalState bars p fit bucket sqrtq rng).map (fun st => mkResult st.rets)

/-! ## Claim C5: the drawdown throttles of the two paths -/

/-- Claim C5 counterexample.  The claim asserts that on an executed rebalance
the *backtest* drawdown throttle computes the maximum drawdown of the
trailing equity curve over a lookback window (the behaviour captured by
`specThrottle`, and implemented by the live path).  On the equity curve
`[1, 1/2, 1]` with current equity `1`, `max_drawdown = 1/10` and leverage
`1`, the windowed maximum drawdown is `1/2`, so the claimed rule scales
leverage to `1/5`, while the backtest code sees a current drawdown of `0`
from the all-time peak and leaves leverage at `1` — the live fragment agrees
with the claimed rule at this input, the backtest path does not. -/
theorem spec_c5_counterexample :
    backtestThrottle [1, 1/2, 1] 1 (1/10) 1 ≠ specThrottle [1, 1/2, 1] (1/10) 1 ∧
    liveThrottle [1, 1/2, 1] (1/10) 1 = specThrottle [1, 1/2, 1] (1/10) 1 := by
  with_unfolding_all decide

/-- Claim C5 amended.  On an executed rebalance with `max_drawdown > 0`: the
backtest guardrail measures the *current* drawdown of equity below the peak
of the entire accumulated equity curve (no lookback window), the live
guardrail measures `_compute_drawdown` — the maximum drawdown — of the
trailing equity snapshots (zero when fewer than two exist); in both paths,
when the measured drawdown exceeds `max_drawdown` the leverage is multiplied
by `max (max_drawdown / drawdown) 0.1`, and otherwise it is left unchanged. -/
theorem spec_c5_amended (curve : List ℚ) (equity maxDD lev : ℚ) (equities : List ℚ)
    (hmaxDD : 0 < maxDD) :
    (maxDD < currentDrawdown curve equity →
      backtestThrottle curve equity maxDD lev =
        lev * max (maxDD / currentDrawdown curve equity) (1 / 10))
  ∧ (currentDrawdown curve equity ≤ maxDD → backtestThrottle curve equity maxDD lev = lev)
  ∧ (maxDD < (if 1 < equities.length then computeDrawdown equities else 0) →
      liveThrottle equities maxDD lev =
        lev * max (maxDD / (if 1 < equities.length then computeDrawdown equities else 0)) (1 / 10))
  ∧ ((if 1 < equities.length then computeDrawdown equities else 0) ≤ maxDD →
      liveThrottle equities maxDD lev = lev) := by
  unfold backtestThrottle liveThrottle ddScaledLeverage
  refine ⟨fun h => ?_, fun h => ?_, fun h => ?_, fun h => ?_⟩
  · rw [if_pos hmaxDD, if_pos h]
  · rw [if_pos hmaxDD, if_neg (not_lt.mpr h)]
  · rw [if_pos hmaxDD, if_pos h]
  · rw [if_pos hmaxDD, if_neg (not_lt.mpr h)]

/-- Claim C5 witness: the amended characterisation applied at the
counterexample's input — the backtest path leaves leverage untouched there
while the live path scales it. -/
theorem spec_c5_witness :
    backtestThrottle [1, 1/2, 1] 1 (1/10) 1 = 1 ∧
    liveThrottle [1, 1/2, 1] (1/10) 1 =
      1 * max ((1/10) / (if 1 < ([1, 1/2, 1] : List ℚ).length then
        computeDrawdown [1, 1/2, 1] else 0)) (1/10) := by
  have h := spec_c5_amended [1, 1/2, 1] 1 (1/10) 1 [1, 1/2, 1] (by norm_num)
  exact ⟨h.2.1 (by with_unfolding_all decide), h.2.2.1 (by with_unfolding_all decide)⟩

/-! ## Claim C6: monotonicity of the drawdown throttle -/

/-- Claim C6 counterexample.  The claim asserts strict decrease of the
throttled leverage in the realized drawdown whenever both drawdowns exceed
`max_drawdown`.  With `max_drawdown = 1/10`, leverage `1` and drawdowns
`2 < 3`, both scale factors hit the `0.1` floor and the two effective
leverages are equal, so the decrease is not strict. -/
theorem spec_c6_counterexample :
    (1/10 : ℚ) < 2 ∧ (2 : ℚ) < 3 ∧
    ¬ ddScaledLeverage (1/10) 3 1 < ddScaledLeverage (1/10) 2 1 := by
  with_unfolding_all decide

/-- Claim C6 amended.  Past `max_drawdown`, the throttled leverage is
monotonically non-increasing in the realized drawdown, and the decrease is
strict exactly while the `0.1` floor of the scale factor is not binding
(`maxDD / d1 > 1/10`) and leverage is positive. -/
theorem spec_c6_amended (maxDD lev d1 d2 : ℚ) (hm : 0 < maxDD) (hlev : 0 ≤ lev)
    (h1 : maxDD < d1) (h12 : d1 < d2) :
    ddScaledLeverage maxDD d2 lev ≤ ddScaledLeverage maxDD d1 lev
  ∧ (0 < lev → 1 / 10 < maxDD / d1 →
      ddScaledLeverage maxDD d2 lev < ddScaledLeverage maxDD d1 lev) := by
  have hd1 : 0 < d1 := hm.trans h1
  have hd2 : 0 < d2 := hd1.trans h12
  have h2 : maxDD < d2 := h1.trans h12
  have hdivlt : maxDD / d2 < maxDD / d1 := by
    rw [div_lt_div_iff₀ hd2 hd1]
    exact mul_lt_mul_of_pos_left h12 hm
  unfold ddScaledLeverage
  rw [if_pos h1, if_pos h2]
  constructor
  · exact mul_le_mul_of_nonneg_left (max_le_max hdivlt.le le_rfl) hlev
  · intro hlev0 hfloor
    have hmax : max (maxDD / d2) (1 / 10) < max (maxDD / d1) (1 / 10) := by
      rw [max_eq_left hfloor.le]
      exact max_lt hdivlt hfloor
    exact mul_lt_mul_of_pos_left hmax hlev0

/-- Claim C6 witness: the amended monotonicity applied at `max_drawdown =
1/10`, leverage `1`, drawdowns `1/5 < 2/5` (floor not binding, so the
decrease is strict there). -/
theorem spec_c6_witness :
    ddScaledLeverage (1/10) (2/5) 1 ≤ ddScaledLeverage (1/10) (1/5) 1 ∧
    ddScaledLeverage (1/10) (2/5) 1 < ddScaledLeverage (1/10) (1/5) 1 := by
  have h := spec_c6_amended (1/10) 1 (1/5) (2/5) (by norm_num) (by norm_num)
    (by norm_num) (by norm_num)
  exact ⟨h.1, h.2 (by norm_num) (by norm_num)⟩

/-! ## Weight-map lemmas -/

/-- Keys of a weight map. -/
def wkeys (m : List (String × ℚ)) : List String := m.map (·.1)

theorem replace_eq_self_of_not_mem {m : List (String × ℚ)} {k : String} {v : ℚ}
    (h : ∀ q ∈ m, q.1 ≠ k) :
    m.map (fun p => if p.1 = k then (k, v) else p) = m := by
  induction m with
  | nil => rfl
  | cons p rest ih =>
    simp only [List.map_cons, List.cons.injEq]
    exact ⟨if_neg (h p (List.mem_cons_self p rest)),
      ih (fun q hq => h q (List.mem_cons_of_mem p hq))⟩

theorem wkeys_replace {m : List (String × ℚ)} {k : String} {v : ℚ} :
    wkeys (m.map (fun p => if p.1 = k then (k, v) else p)) = wkeys m := by
  unfold wkeys
  rw [List.map_map]
  refine List.map_congr_left (fun p _ => ?_)
  by_cases h : p.1 = k <;> simp [h]

theorem nodup_wkeys_dinsert {m : List (String × ℚ)} {k : String} {v : ℚ}
    (h : (wkeys m).Nodup) : (wkeys (dinsert m k v)).Nodup := by
  unfold dinsert
  split
  · rwa [wkeys_replace]
  · rename_i hany
    have hk : k ∉ wkeys m := by
      intro hmem
      obtain ⟨q, hq, hq1⟩ := List.mem_map.mp hmem
      exact hany (List.any_eq_true.mpr ⟨q, hq, decide_eq_true hq1⟩)
    unfold wkeys
    rw [List.map_append]
    simp only [List.map_cons, List.map_nil]
    exact List.Nodup.append h (List.nodup_singleton k)
      (fun x hx hx' => hk (by rwa [List.mem_singleton.mp hx'] at hx))

/-- Inserting a value adds at most its `f`-measure to any non-negative
entrywise measure of the map, provided the map's keys are unique. -/
theorem msum_dinsert_le (f : ℚ → ℚ) (hf : ∀ x, 0 ≤ f x)
    {m : List (String × ℚ)} (k : String) (v : ℚ) (hm : (wkeys m).Nodup) :
    ((dinsert m k v).map (fun p => f p.2)).sum ≤ (m.map (fun p => f p.2)).sum + f v := by
  unfold dinsert
  split
  · -- replacement: at most one entry (unique keys) changes from f old to f v
    clear * - hf hm
    induction m with
    | nil => simpa using hf v
    | cons p rest ih =>
      simp only [wkeys, List.map_cons, List.nodup_cons] at hm
      obtain ⟨hp, hrest⟩ := hm
      by_cases hpk : p.1 = k
      · have hnk : ∀ q ∈ rest, q.1 ≠ k := by
          intro q hq hqk
          apply hp
          rw [hpk]
          exact List.mem_map.mpr ⟨q, hq, hqk⟩
        simp only [List.map_cons, if_pos hpk, replace_eq_self_of_not_mem hnk,
          List.sum_cons]
        have h0 := hf p.2
        linarith
      · simp only [List.map_cons, if_neg hpk, List.sum_cons]
        have := ih hrest
        linarith
  · rw [List.map_append]
    simp [List.sum_append]

theorem entries_dinsert {P : ℚ → Prop} {m : List (String × ℚ)} {k : String} {v : ℚ}
    (hm : ∀ q ∈ m, P q.2) (hv : P v) : ∀ q ∈ dinsert m k v, P q.2 := by
  unfold dinsert
  split
  · intro q hq
    obtain ⟨p, hp, hpq⟩ := List.mem_map.mp hq
    by_cases hpk : p.1 = k
    · rw [if_pos hpk] at hpq
      exact hpq ▸ hv
    · rw [if_neg hpk] at hpq
      exact hpq ▸ hm p hp
  · intro q hq
    rcases List.mem_append.mp hq with h | h
    · exact hm q h
    · rw [List.mem_singleton.mp h]
      exact hv

theorem mem_dinsert_self (m : List (String × ℚ)) (k : String) (v : ℚ) :
    (k, v) ∈ dinsert m k v := by
  unfold dinsert
  split
  · rename_i hany
    obtain ⟨p, hp, hpk⟩ := List.any_eq_true.mp hany
    exact List.mem_map.mpr ⟨p, hp, by rw [if_pos (of_decide_eq_true hpk)]⟩
  · exact List.mem_append_right _ (List.mem_singleton.mpr rfl)

/-- Folding insertions over a list: the measure of the result is bounded by
the measures of the inserted values, and key uniqueness is preserved. -/
theorem msum_foldl_dinsert {α : Type} (f : ℚ → ℚ) (hf : ∀ x, 0 ≤ f x)
    (key : α → String) (w : α → ℚ) (L : List α) (m0 : List (String × ℚ))
    (h0 : (wkeys m0).Nodup) :
    ((L.foldl (fun m r => dinsert m (key r) (w r)) m0).map (fun p => f p.2)).sum
      ≤ (m0.map (fun p => f p.2)).sum + (L.map (fun r => f (w r))).sum
  ∧ (wkeys (L.foldl (fun m r => dinsert m (key r) (w r)) m0)).Nodup := by
  induction L generalizing m0 with
  | nil => simpa using h0
  | cons r L ih =>
    simp only [List.foldl_cons, List.map_cons, List.sum_cons]
    obtain ⟨ihs, ihn⟩ := ih (dinsert m0 (key r) (w r)) (nodup_wkeys_dinsert h0)
    refine ⟨?_, ihn⟩
    have h1 := msum_dinsert_le f hf (key r) (w r) h0
    linarith

theorem entries_foldl_dinsert {α : Type} {P : ℚ → Prop}
    (key : α → String) (w : α → ℚ) (L : List α) (m0 : List (String × ℚ))
    (h0 : ∀ q ∈ m0, P q.2) (hL : ∀ r ∈ L, P (w r)) :
    ∀ q ∈ L.foldl (fun m r => dinsert m (key r) (w r)) m0, P q.2 := by
  induction L generalizing m0 with
  | nil => exact h0
  | cons r L ih =>
    simp only [List.foldl_cons]
    exact ih (dinsert m0 (key r) (w r))
      (entries_dinsert h0 (hL r (List.mem_cons_self r L)))
      (fun x hx => hL x (List.mem_cons_of_mem r hx))

/-- The final insertion of a non-empty fold survives into the result. -/
theorem foldl_dinsert_last {α : Type} (key : α → String) (w : α → ℚ)
    (L : List α) (m0 : List (String × ℚ)) (hL : L ≠ []) :
    ∃ r ∈ L, (key r, w r) ∈ L.foldl (fun m x => dinsert m (key x) (w x)) m0 := by
  rcases List.eq_nil_or_concat L with h | ⟨L', b, rfl⟩
  · exact absurd h hL
  · refine ⟨b, by simp, ?_⟩
    rw [List.concat_eq_append, List.foldl_append]
    simp only [List.foldl_cons, List.foldl_nil]
    exact mem_dinsert_self _ _ _

theorem abs_eq_pospart_add_negpart (x : ℚ) : |x| = max x 0 + max (-x) 0 := by
  rcases le_total 0 x with h | h
  · rw [abs_of_nonneg h, max_eq_left h, max_eq_right (by linarith)]
    ring
  · rw [abs_of_nonpos h, max_eq_right h, max_eq_left (by linarith)]
    ring

theorem sumAbs_eq_posSum_add_negSum (m : List (String × ℚ)) :
    sumAbs m = posSum m + negSum m := by
  unfold sumAbs posSum negSum
  induction m with
  | nil => simp
  | cons p rest ih =>
    simp only [List.map_cons, List.sum_cons, ih, abs_eq_pospart_add_negpart p.2]
    ring

/-- Inverse-volatility book sizing: capped weights normalized by the book's
total inverse volatility sum to at most the book's leverage allocation. -/
theorem book_sum_le {α : Type} (L : List α) (inv : α → ℚ) (cap G : ℚ)
    (hpos : ∀ r ∈ L, 0 < inv r) (_hcap : 0 ≤ cap) (hG : 0 ≤ G) :
    (L.map (fun r => min cap (inv r / (L.map inv).sum * G))).sum ≤ G := by
  rcases eq_or_ne L [] with rfl | hL
  · simpa using hG
  · have hT : 0 < (L.map inv).sum := by
      refine List.sum_pos _ (fun x hx => ?_) (by simpa using hL)
      obtain ⟨r, hr, rfl⟩ := List.mem_map.mp hx
      exact hpos r hr
    calc (L.map (fun r => min cap (inv r / (L.map inv).sum * G))).sum
        ≤ (L.map (fun r => inv r / (L.map inv).sum * G)).sum :=
          List.sum_le_sum (fun r _ => min_le_right _ _)
      _ = (L.map (fun r => inv r * (G / (L.map inv).sum))).sum := by
          refine congrArg List.sum (List.map_congr_left fun r _ => ?_)
          rw [div_mul_eq_mul_div, mul_div_assoc]
      _ = (L.map inv).sum * (G / (L.map inv).sum) := by
          rw [← List.sum_map_mul_right]
      _ = G := by
          rw [mul_comm, div_mul_cancel₀ _ hT.ne']

/-- Properties of a long book built by folding capped inverse-volatility
insertions into the empty map: positive mass at most the allocation `G`, no
negative mass, unique keys, and every entry in `[0, cap]`. -/
theorem long_fold_props {α : Type} (key : α → String) (inv : α → ℚ)
    (hpos : ∀ r, 0 < inv r) (L : List α) (cap G : ℚ) (hcap : 0 ≤ cap) (hG : 0 ≤ G) :
    posSum (L.foldl (fun m r =>
        dinsert m (key r) (min cap (inv r / (L.map inv).sum * G))) [])
      ≤ G
  ∧ negSum (L.foldl (fun m r =>
        dinsert m (key r) (min cap (inv r / (L.map inv).sum * G))) [])
      ≤ 0
  ∧ (wkeys (L.foldl (fun m r =>
        dinsert m (key r) (min cap (inv r / (L.map inv).sum * G))) [])).Nodup
  ∧ ∀ q ∈ L.foldl (fun m r =>
        dinsert m (key r) (min cap (inv r / (L.map inv).sum * G))) [],
      0 ≤ q.2 ∧ q.2 ≤ cap := by
  rcases eq_or_ne L [] with rfl | hL
  · exact ⟨by simpa [posSum] using hG, by simp [negSum], by simp [wkeys], by simp⟩
  · have hT : 0 < (L.map inv).sum := by
      refine List.sum_pos _ (fun x hx => ?_) (by simpa using hL)
      obtain ⟨r, hr, rfl⟩ := List.mem_map.mp hx
      exact hpos r
    have hw0 : ∀ r : α, 0 ≤ min cap (inv r / (L.map inv).sum * G) := fun r =>
      le_min hcap (mul_nonneg (le_of_lt (div_pos (hpos r) hT)) hG)
    have hnodup0 : (wkeys ([] : List (String × ℚ))).Nodup := by simp [wkeys]
    refine ⟨?_, ?_, ?_, ?_⟩
    · have h := (msum_foldl_dinsert (fun x => max x 0) (fun x => le_max_right x 0)
        key (fun r => min cap (inv r / (L.map inv).sum * G)) L [] hnodup0).1
      refine le_trans h ?_
      simp only [List.map_nil, List.sum_nil, zero_add]
      have heq : (L.map (fun r => max (min cap (inv r / (L.map inv).sum * G)) 0)).sum
          = (L.map (fun r => min cap (inv r / (L.map inv).sum * G))).sum :=
        congrArg List.sum (List.map_congr_left fun r _ => max_eq_left (hw0 r))
      rw [heq]
      exact book_sum_le L inv cap G (fun r _ => hpos r) hcap hG
    · have h := (msum_foldl_dinsert (fun x => max (-x) 0) (fun x => le_max_right (-x) 0)
        key (fun r => min cap (inv r / (L.map inv).sum * G)) L [] hnodup0).1
      refine le_trans h ?_
      simp only [List.map_nil, List.sum_nil, zero_add]
      refine le_of_eq (List.sum_eq_zero fun x hx => ?_)
      obtain ⟨r, _, rfl⟩ := List.mem_map.mp hx
      exact max_eq_right (by linarith [hw0 r])
    · exact (msum_foldl_dinsert (fun x => max x 0) (fun x => le_max_right x 0)
        key (fun r => min cap (inv r / (L.map inv).sum * G)) L [] hnodup0).2
    · exact entries_foldl_dinsert (P := fun v => 0 ≤ v ∧ v ≤ cap) key
        (fun r => min cap (inv r / (L.map inv).sum * G)) L [] (by simp)
        (fun r _ => ⟨hw0 r, min_le_left _ _⟩)

/-- Properties of a short book folded on top of an existing map: it adds no
positive mass, at most `G` of negative mass, preserves key uniqueness, and
every inserted entry lies in `[-cap, 0]`. -/
theorem short_fold_props {α : Type} (key : α → String) (inv : α → ℚ)
    (hpos : ∀ r, 0 < inv r) (L : List α) (cap G : ℚ) (hcap : 0 ≤ cap) (hG : 0 ≤ G)
    (m0 : List (String × ℚ)) (h0 : (wkeys m0).Nodup) :
    posSum (L.foldl (fun m r =>
        dinsert m (key r) (-min cap (inv r / (L.map inv).sum * G))) m0)
      ≤ posSum m0
  ∧ negSum (L.foldl (fun m r =>
        dinsert m (key r) (-min cap (inv r / (L.map inv).sum * G))) m0)
      ≤ negSum m0 + G
  ∧ (wkeys (L.foldl (fun m r =>
        dinsert m (key r) (-min cap (inv r / (L.map inv).sum * G))) m0)).Nodup
  ∧ ∀ P : ℚ → Prop, (∀ q ∈ m0, P q.2) → (∀ r ∈ L, P (-min cap (inv r / (L.map inv).sum * G))) →
      ∀ q ∈ L.foldl (fun m r =>
        dinsert m (key r) (-min cap (inv r / (L.map inv).sum * G))) m0, P q.2 := by
  rcases eq_or_ne L [] with rfl | hL
  · exact ⟨by simp, by simpa using hG, by simpa using h0, fun P hP _ => by simpa using hP⟩
  · have hT : 0 < (L.map inv).sum := by
      refine List.sum_pos _ (fun x hx => ?_) (by simpa using hL)
      obtain ⟨r, hr, rfl⟩ := List.mem_map.mp hx
      exact hpos r
    have hw0 : ∀ r : α, 0 ≤ min cap (inv r / (L.map inv).sum * G) := fun r =>
      le_min hcap (mul_nonneg (le_of_lt (div_pos (hpos r) hT)) hG)
    refine ⟨?_, ?_, ?_, ?_⟩
    · have h := (msum_foldl_dinsert (fun x => max x 0) (fun x => le_max_right x 0)
        key (fun r => -min cap (inv r / (L.map inv).sum * G)) L m0 h0).1
      refine le_trans h ?_
      have heq : (L.map (fun r => max (-min cap (inv r / (L.map inv).sum * G)) 0)).sum = 0 :=
        List.sum_eq_zero fun x hx => by
          obtain ⟨r, _, rfl⟩ := List.mem_map.mp hx
          exact max_eq_right (by linarith [hw0 r])
      rw [heq, add_zero]
      exact le_of_eq rfl
    · have h := (msum_foldl_dinsert (fun x => max (-x) 0) (fun x => le_max_right (-x) 0)
        key (fun r => -min cap (inv r / (L.map inv).sum * G)) L m0 h0).1
      refine le_trans h ?_
      unfold negSum
      have heq : (L.map (fun r => max (- -min cap (inv r / (L.map inv).sum * G)) 0)).sum
          = (L.map (fun r => min cap (inv r / (L.map inv).sum * G))).sum :=
        congrArg List.sum (List.map_congr_left fun r _ => by
          rw [neg_neg]
          exact max_eq_left (hw0 r))
      rw [heq]
      have := book_sum_le L inv cap G (fun r _ => hpos r) hcap hG
      linarith
    · exact (msum_foldl_dinsert (fun x => max x 0) (fun x => le_max_right x 0)
        key (fun r => -min cap (inv r / (L.map inv).sum * G)) L m0 h0).2
    · intro P hP hL'
      exact entries_foldl_dinsert key _ L m0 hP hL'

/-- Bounds for the long book of `_inverse_vol_weights` / `_target_weights`
(including the degenerate empty-book branch): positive mass at most the
allocation, no negative mass, unique keys, entries in `[0, cap]`. -/
theorem long_if_props {α : Type} [DecidableEq α] (key : α → String) (inv : α → ℚ)
    (hpos : ∀ r, 0 < inv r) (longs : List α) (cap G : ℚ) (hcap : 0 ≤ cap) (hG : 0 ≤ G) :
    posSum (if longs ≠ [] then
        longs.foldl (fun m r =>
          dinsert m (key r) (min cap (inv r / (longs.map inv).sum * G))) []
      else []) ≤ G
  ∧ negSum (if longs ≠ [] then
        longs.foldl (fun m r =>
          dinsert m (key r) (min cap (inv r / (longs.map inv).sum * G))) []
      else []) ≤ 0
  ∧ (wkeys (if longs ≠ [] then
        longs.foldl (fun m r =>
          dinsert m (key r) (min cap (inv r / (longs.map inv).sum * G))) []
      else [])).Nodup
  ∧ ∀ q ∈ (if longs ≠ [] then
        longs.foldl (fun m r =>
          dinsert m (key r) (min cap (inv r / (longs.map inv).sum * G))) []
      else []), 0 ≤ q.2 ∧ q.2 ≤ cap := by
  split
  · exact long_fold_props key inv hpos longs cap G hcap hG
  · exact ⟨by simpa [posSum] using hG, by simp [negSum], by simp [wkeys], by simp⟩

/-- Bounds for the short book folded on top of an existing map `m0`
(including the degenerate empty-book branch), given bounds on `m0`: the
result keeps positive mass at most `lg`, gains at most `G` of negative mass,
hence gross at most `lg + G`, and all entries stay within the cap. -/
theorem short_if_props {α : Type} [DecidableEq α] (key : α → String) (inv : α → ℚ)
    (hpos : ∀ r, 0 < inv r) (shorts : List α) (cap G lg : ℚ)
    (hcap : 0 ≤ cap) (hG : 0 ≤ G)
    (m0 : List (String × ℚ)) (h0k : (wkeys m0).Nodup)
    (h0e : ∀ q ∈ m0, 0 ≤ q.2 ∧ q.2 ≤ cap)
    (h0p : posSum m0 ≤ lg) (h0n : negSum m0 ≤ 0) :
    sumAbs (if shorts ≠ [] then
        shorts.foldl (fun m r =>
          dinsert m (key r) (-min cap (inv r / (shorts.map inv).sum * G))) m0
      else m0) ≤ lg + G
  ∧ posSum (if shorts ≠ [] then
        shorts.foldl (fun m r =>
          dinsert m (key r) (-min cap (inv r / (shorts.map inv).sum * G))) m0
      else m0) ≤ lg
  ∧ negSum (if shorts ≠ [] then
        shorts.foldl (fun m r =>
          dinsert m (key r) (-min cap (inv r / (shorts.map inv).sum * G))) m0
      else m0) ≤ G
  ∧ ∀ q ∈ (if shorts ≠ [] then
        shorts.foldl (fun m r =>
          dinsert m (key r) (-min cap (inv r / (shorts.map inv).sum * G))) m0
      else m0), |q.2| ≤ cap := by
  have habs : ∀ m2 : List (String × ℚ), posSum m2 ≤ lg → negSum m2 ≤ G →
      sumAbs m2 ≤ lg + G := fun m2 h1 h2 => by
    rw [sumAbs_eq_posSum_add_negSum]
    linarith
  split
  · rename_i hsh
    have hT : 0 < (shorts.map inv).sum := by
      refine List.sum_pos _ (fun x hx => ?_) (by simpa using hsh)
      obtain ⟨r, hr, rfl⟩ := List.mem_map.mp hx
      exact hpos r
    have hw0 : ∀ r : α, 0 ≤ min cap (inv r / (shorts.map inv).sum * G) := fun r =>
      le_min hcap (mul_nonneg (le_of_lt (div_pos (hpos r) hT)) hG)
    obtain ⟨hsp, hsn, _, hse⟩ :=
      short_fold_props key inv hpos shorts cap G hcap hG m0 h0k
    have hp : posSum (shorts.foldl (fun m r =>
        dinsert m (key r) (-min cap (inv r / (shorts.map inv).sum * G))) m0) ≤ lg :=
      le_trans hsp h0p
    have hn : negSum (shorts.foldl (fun m r =>
        dinsert m (key r) (-min cap (inv r / (shorts.map inv).sum * G))) m0) ≤ G :=
      le_trans hsn (by linarith)
    refine ⟨habs _ hp hn, hp, hn, ?_⟩
    refine hse (fun v => |v| ≤ cap) (fun q hq => ?_) (fun r _ => ?_)
    · obtain ⟨h1, h2⟩ := h0e q hq
      rwa [abs_of_nonneg h1]
    · show |(-min cap (inv r / (shorts.map inv).sum * G))| ≤ cap
      rw [abs_neg, abs_of_nonneg (hw0 r)]
      exact min_le_left _ _
  · have hn : negSum m0 ≤ G := le_trans h0n hG
    refine ⟨habs _ h0p hn, h0p, hn, fun q hq => ?_⟩
    obtain ⟨h1, h2⟩ := h0e q hq
    rwa [abs_of_nonneg h1]

theorem srow_inv_pos (r : SRow) : 0 < 1 / max r.vol (1 / 1000000) :=
  one_div_pos.mpr (lt_of_lt_of_le (by norm_num) (le_max_right _ _))

theorem signal_inv_pos (s : Signal) : 0 < 1 / effVol s.vol :=
  one_div_pos.mpr (lt_of_lt_of_le (by norm_num) (le_max_right _ _))

/-- The leverage-bound invariant for the backtest weight constructor. -/
theorem inverseVolWeights_bounds (slice : List SRow) (topk : ℕ)
    (minLong maxShort g cap : ℚ) (allowShorts : Bool) (hg : 0 ≤ g) (hcap : 0 ≤ cap) :
    sumAbs (inverseVolWeights slice topk minLong maxShort g cap allowShorts) ≤ g
  ∧ ∀ q ∈ inverseVolWeights slice topk minLong maxShort g cap allowShorts, |q.2| ≤ cap := by
  rcases eq_or_ne slice [] with rfl | hs
  · simpa [inverseVolWeights, sumAbs] using hg
  · have hg2 : 0 ≤ g / 2 := by linarith
    cases allowShorts
    case false =>
      simp only [inverseVolWeights, if_neg hs, Bool.false_eq_true, if_false]
      obtain ⟨h0p, h0n, h0k, h0e⟩ := long_if_props (fun r : SRow => r.symbol)
        (fun r => 1 / max r.vol (1 / 1000000)) srow_inv_pos
        ((isortBy (fun a b : SRow => decide (b.pred ≤ a.pred))
          (slice.filter (fun r : SRow => decide (minLong ≤ r.pred)))).take topk) cap g hcap hg
      obtain ⟨hsA, _, _, hsE⟩ := short_if_props (fun r : SRow => r.symbol)
        (fun r => 1 / max r.vol (1 / 1000000)) srow_inv_pos
        ([] : List SRow) cap 0 g hcap le_rfl _ h0k h0e h0p h0n
      exact ⟨le_trans hsA (by linarith), hsE⟩
    case true =>
      simp only [inverseVolWeights, if_neg hs, eq_self_iff_true, if_true]
      obtain ⟨h0p, h0n, h0k, h0e⟩ := long_if_props (fun r : SRow => r.symbol)
        (fun r => 1 / max r.vol (1 / 1000000)) srow_inv_pos
        ((isortBy (fun a b : SRow => decide (b.pred ≤ a.pred))
          (slice.filter (fun r : SRow => decide (minLong ≤ r.pred)))).take topk) cap (g / 2) hcap hg2
      obtain ⟨hsA, _, _, hsE⟩ := short_if_props (fun r : SRow => r.symbol)
        (fun r => 1 / max r.vol (1 / 1000000)) srow_inv_pos
        ((isortBy (fun a b : SRow => decide (a.pred ≤ b.pred))
          (slice.filter (fun r : SRow => decide (r.pred ≤ maxShort)))).take topk)
        cap (g / 2) (g / 2) hcap hg2 _ h0k h0e h0p h0n
      exact ⟨le_trans hsA (by linarith), hsE⟩

/-- The leverage-bound invariant for the live weight constructor. -/
theorem targetWeights_bounds (signals : List Signal) (g cap : ℚ) (topk : ℕ)
    (allowShorts : Bool) (hg : 0 ≤ g) (hcap : 0 ≤ cap) :
    sumAbs (targetWeights signals g cap topk allowShorts) ≤ g
  ∧ ∀ q ∈ targetWeights signals g cap topk allowShorts, |q.2| ≤ cap := by
  have hg2 : 0 ≤ g / 2 := by linarith
  cases allowShorts
  case false =>
    simp only [targetWeights, Bool.false_eq_true, if_false]
    split
    · simpa [sumAbs] using hg
    · obtain ⟨h0p, h0n, h0k, h0e⟩ := long_if_props (fun s : Signal => s.symbol)
        (fun s => 1 / effVol s.vol) signal_inv_pos
        ((signals.filter (fun s : Signal => decide (s.side = "LONG"))).take topk) cap g hcap hg
      obtain ⟨hsA, _, _, hsE⟩ := short_if_props (fun s : Signal => s.symbol)
        (fun s => 1 / effVol s.vol) signal_inv_pos
        ([] : List Signal) cap 0 g hcap le_rfl _ h0k h0e h0p h0n
      exact ⟨le_trans hsA (by linarith), hsE⟩
  case true =>
    simp only [targetWeights, eq_self_iff_true, if_true]
    split
    · simpa [sumAbs] using hg
    · obtain ⟨h0p, h0n, h0k, h0e⟩ := long_if_props (fun s : Signal => s.symbol)
        (fun s => 1 / effVol s.vol) signal_inv_pos
        ((signals.filter (fun s : Signal => decide (s.side = "LONG"))).take topk)
        cap (g / 2) hcap hg2
      obtain ⟨hsA, _, _, hsE⟩ := short_if_props (fun s : Signal => s.symbol)
        (fun s => 1 / effVol s.vol) signal_inv_pos
        ((signals.filter (fun s : Signal => decide (s.side = "SHORT"))).take topk)
        cap (g / 2) (g / 2) hcap hg2 _ h0k h0e h0p h0n
      exact ⟨le_trans hsA (by linarith), hsE⟩

/-- Claim C1 (confirmed).  Every weight map produced by the backtest weight
constructor `_inverse_vol_weights` and by the live weight constructor
`_target_weights`, for non-negative gross leverage and position cap, has sum
of absolute weights at most the gross leverage passed in (hence at most
gross leverage plus any epsilon) and every individual absolute weight at
most `max_position_pct`. -/
theorem spec_c1 (slice : List SRow) (signals : List Signal) (topk : ℕ)
    (minLong maxShort g cap : ℚ) (allowShorts : Bool)
    (hg : 0 ≤ g) (hcap : 0 ≤ cap) :
    (sumAbs (inverseVolWeights slice topk minLong maxShort g cap allowShorts) ≤ g
      ∧ ∀ q ∈ inverseVolWeights slice topk minLong maxShort g cap allowShorts, |q.2| ≤ cap)
  ∧ (sumAbs (targetWeights signals g cap topk allowShorts) ≤ g
      ∧ ∀ q ∈ targetWeights signals g cap topk allowShorts, |q.2| ≤ cap) :=
  ⟨inverseVolWeights_bounds slice topk minLong maxShort g cap allowShorts hg hcap,
   targetWeights_bounds signals g cap topk allowShorts hg hcap⟩

/-- Claim C1 witness: the bound at a concrete two-long/one-short slice and
signal list with gross leverage `1` and position cap `2/5`. -/
theorem spec_c1_witness :
    (0:ℚ) ≤ 1 ∧ (0:ℚ) ≤ 2/5 ∧
    (sumAbs (inverseVolWeights
        [⟨"AAA", 1/10, 1/100⟩, ⟨"BBB", 1/20, 1/50⟩, ⟨"CCC", -1/10, 1/100⟩]
        2 0 0 1 (2/5) true) ≤ 1
      ∧ ∀ q ∈ inverseVolWeights
        [⟨"AAA", 1/10, 1/100⟩, ⟨"BBB", 1/20, 1/50⟩, ⟨"CCC", -1/10, 1/100⟩]
        2 0 0 1 (2/5) true, |q.2| ≤ 2/5)
    ∧ (sumAbs (targetWeights
        [⟨"AAA", 1/10, "LONG", some (1/100)⟩, ⟨"CCC", -1/10, "SHORT", none⟩]
        1 (2/5) 2 true) ≤ 1
      ∧ ∀ q ∈ targetWeights
        [⟨"AAA", 1/10, "LONG", some (1/100)⟩, ⟨"CCC", -1/10, "SHORT", none⟩]
        1 (2/5) 2 true, |q.2| ≤ 2/5) :=
  ⟨by norm_num, by norm_num,
   spec_c1 [⟨"AAA", 1/10, 1/100⟩, ⟨"BBB", 1/20, 1/50⟩, ⟨"CCC", -1/10, 1/100⟩]
     [⟨"AAA", 1/10, "LONG", some (1/100)⟩, ⟨"CCC", -1/10, "SHORT", none⟩]
     2 0 0 1 (2/5) true (by norm_num) (by norm_num)⟩

/-! ## Claim C3: no look-ahead in walk-forward training -/

theorem getD_mem {α : Type} : ∀ (l : List α) (n : ℕ) (d : α), n < l.length → l.getD n d ∈ l
  | a :: l, 0, _, _ => List.mem_cons_self a l
  | a :: l, n + 1, d, h =>
    List.mem_cons_of_mem a (getD_mem l n d (by simpa using h))

/-- Every labelled row produced by `build_labels` comes from the passed
frame, and its label (when defined) is computed from the closes of two rows
of the passed frame. -/
theorem buildLabels_mem {rows : List FeatureRow} {h : ℕ} {q : FeatureRow × Option ℚ}
    (hq : q ∈ buildLabels rows h) :
    q.1 ∈ rows ∧ ∀ l, q.2 = some l →
      ∃ r' ∈ rows, l = (r'.close - q.1.close) / q.1.close := by
  unfold buildLabels at hq
  rw [List.mem_flatten] at hq
  obtain ⟨blk, hblk, hqblk⟩ := hq
  rw [List.mem_map] at hblk
  obtain ⟨s, _, rfl⟩ := hblk
  rw [List.mem_map] at hqblk
  obtain ⟨p, hp, rfl⟩ := hqblk
  rw [List.mem_range] at hp
  constructor
  · exact (List.mem_filter.mp (getD_mem _ p default hp)).1
  · intro l hl
    by_cases hcut : p + h < (rows.filter (fun r => r.symbol = s)).length
    · rw [if_pos hcut] at hl
      refine ⟨(rows.filter (fun r => r.symbol = s)).getD (p + h) default,
        (List.mem_filter.mp (getD_mem _ (p + h) default hcut)).1, ?_⟩
      exact (Option.some.injEq _ _ ▸ hl).symm
    · rw [if_neg hcut] at hl
      exact absurd hl (Option.noConfusion)

/-- Every row of the walk-forward training window has timestamp inside
`[ts - lookback_days, ts)`. -/
theorem trainWindow_mem {rowsN : List NRow} {p : BTParams} {ts : ℚ} {r : FeatureRow}
    (hr : r ∈ trainWindow rowsN p ts) :
    r.timestamp < ts ∧ ts - p.lookback_days ≤ r.timestamp := by
  unfold trainWindow at hr
  rw [List.mem_map] at hr
  obtain ⟨q, hq, rfl⟩ := hr
  have hq1 : q ∈ (if 0 < p.min_price then
      (rowsN.filter (fun r => r.1.timestamp < ts ∧ ts - p.lookback_days ≤ r.1.timestamp)).filter
        (fun r => p.min_price ≤ r.1.close)
    else rowsN.filter (fun r => r.1.timestamp < ts ∧ ts - p.lookback_days ≤ r.1.timestamp)) := by
    split at hq
    · exact (List.mem_filter.mp hq).1
    · exact hq
  have hq0 : q ∈ rowsN.filter
      (fun r => r.1.timestamp < ts ∧ ts - p.lookback_days ≤ r.1.timestamp) := by
    split at hq1
    · exact (List.mem_filter.mp hq1).1
    · exact hq1
  exact of_decide_eq_true (List.mem_filter.mp hq0).2

/-- Every `(X, y)` training pair assembled by `train_model` comes from a row
of the passed frame, with the label built from a second row of the same
frame. -/
theorem trainData_mem {rows : List FeatureRow} {h : ℕ} {pr : List ℚ × ℚ}
    (hpr : pr ∈ trainData rows h) :
    ∃ r ∈ rows, pr.1 = featVec r ∧
      ∃ r' ∈ rows, pr.2 = (r'.close - r.close) / r.close := by
  unfold trainData at hpr
  rw [List.mem_map] at hpr
  obtain ⟨q, hq, rfl⟩ := hpr
  obtain ⟨hqB, hcond⟩ := List.mem_filter.mp hq
  have hB := buildLabels_mem hqB
  have hsome : q.2.isSome := (Bool.and_eq_true_iff.mp hcond).2
  obtain ⟨l, hl⟩ := Option.isSome_iff_exists.mp hsome
  obtain ⟨r', hr', hl'⟩ := hB.2 l hl
  exact ⟨q.1, hB.1, rfl, r', hr', by rw [hl, Option.getD_some, hl']⟩

/-- Claim C3 (confirmed).  For rebalance date `ts`, the model fitted inside
the walk-forward loop is `fit` applied to exactly the training pairs of the
rolling window, and every such pair — the feature vector and both rows whose
closes build its label — comes from rows with timestamps in
`[ts - lookback_days, ts)`; no row with timestamp `≥ ts` enters the fit. -/
theorem spec_c3 (rowsN : List NRow) (p : BTParams) (ts : ℚ)
    (fit : List (List ℚ × ℚ) → (List ℚ → ℚ)) :
    trainModel (trainWindow rowsN p ts) p.horizon_days fit =
      fit (trainData (trainWindow rowsN p ts) p.horizon_days)
  ∧ ∀ pr ∈ trainData (trainWindow rowsN p ts) p.horizon_days,
      ∃ r ∈ trainWindow rowsN p ts,
        pr.1 = featVec r ∧ r.timestamp < ts ∧ ts - p.lookback_days ≤ r.timestamp ∧
        ∃ r' ∈ trainWindow rowsN p ts,
          r'.timestamp < ts ∧ ts - p.lookback_days ≤ r'.timestamp ∧
          pr.2 = (r'.close - r.close) / r.close := by
  refine ⟨rfl, fun pr hpr => ?_⟩
  obtain ⟨r, hr, hvec, r', hr', hlab⟩ := trainData_mem hpr
  obtain ⟨h1, h2⟩ := trainWindow_mem hr
  obtain ⟨h1', h2'⟩ := trainWindow_mem hr'
  exact ⟨r, hr, hvec, h1, h2, r', hr', h1', h2', hlab⟩

/-- A fully-defined feature row used to exercise the training-window
selection. -/
def c3Row1 : FeatureRow :=
  { symbol := "A", timestamp := 1, close := 1,
    return_1d := some 0, return_5d := some 0, return_10d := some 0,
    mom_20d := some 0, vol_20d := some 0, range_5d := some 0,
    dollar_vol_20d := some 0, market_return_1d := some 0,
    market_mom_20d := some 0, rank_mom_20d := some 0 }

/-- A second row of the same symbol one day later at twice the close. -/
def c3Row2 : FeatureRow := { c3Row1 with timestamp := 2, close := 2 }

/-- A two-row frame for the no-lookahead witness. -/
def c3RowsN : List NRow := [(c3Row1, none), (c3Row2, none)]

/-- Parameters for the no-lookahead witness: horizon one day, ten-day
lookback, all gates disabled. -/
def c3P : BTParams :=
  { horizon_days := 1, min_long_return := 0, max_short_return := 0,
    gross_leverage := 1, top_k := 1, max_position_pct := 1, tcost_bps := 0,
    bear_leverage := 1, lookback_days := 10, min_price := 0,
    min_dollar_vol := 0, vol_target := 0, vol_window := 1,
    max_drawdown := 0, min_leverage := 0, miss_rebalance_prob := 0,
    rebalance_delay_days := 0 }

/-- Claim C3 witness: the single training pair produced for rebalance date
`5` on the two-row frame lies strictly inside the rolling window. -/
theorem spec_c3_witness :
    (featVec c3Row1, (1 : ℚ)) ∈ trainData (trainWindow c3RowsN c3P 5) c3P.horizon_days ∧
    ∃ r ∈ trainWindow c3RowsN c3P 5,
      (featVec c3Row1, (1 : ℚ)).1 = featVec r ∧ r.timestamp < 5 ∧
      5 - c3P.lookback_days ≤ r.timestamp ∧
      ∃ r' ∈ trainWindow c3RowsN c3P 5,
        r'.timestamp < 5 ∧ 5 - c3P.lookback_days ≤ r'.timestamp ∧
        (featVec c3Row1, (1 : ℚ)).2 = (r'.close - r.close) / r.close :=
  have hm : (featVec c3Row1, (1 : ℚ)) ∈ trainData (trainWindow c3RowsN c3P 5)
      c3P.horizon_days := by
    with_unfolding_all decide
  ⟨hm, (spec_c3 c3RowsN c3P 5 (fun _ _ => 0)).2 _ hm⟩

/-! ## Claim C9: the benchmark is mandatory -/

theorem mem_isortInsert {α : Type} (le : α → α → Bool) (x y : α) (l : List α) :
    y ∈ isortInsert le x l ↔ y = x ∨ y ∈ l := by
  induction l with
  | nil => simp [isortInsert]
  | cons a l ih =>
    unfold isortInsert
    split
    · simp [List.mem_cons]
    · simp only [List.mem_cons, ih]
      tauto

theorem mem_isortBy {α : Type} (le : α → α → Bool) (x : α) (l : List α) :
    x ∈ isortBy le l ↔ x ∈ l := by
  induction l with
  | nil => simp [isortBy]
  | cons a l ih => simp [isortBy, mem_isortInsert, ih, List.mem_cons]

/-- Stage one of `build_features`: the per-symbol rolling features of every
symbol of the sorted frame, concatenated in symbol order. -/
def bfBase (bars : List Bar) : List FeatureRow :=
  (((sortBars bars).map (·.symbol)).dedup.map
    (fun s => symbolRows ((sortBars bars).filter (fun b => b.symbol = s)))).flatten

/-- Stage two: the benchmark features left-joined onto every row by
timestamp. -/
def bfMerged (bars : List Bar) (mkt : String) : List FeatureRow :=
  (bfBase bars).map (fun r =>
    let mf := marketFeatsAt ((sortBars bars).filter (fun b => b.symbol = mkt)) r.timestamp
    { r with market_return_1d := mf.1, market_mom_20d := mf.2 })

/-- Stage three: the cross-sectional momentum rank. -/
def bfRanked (bars : List Bar) (mkt : String) : List FeatureRow :=
  (bfMerged bars mkt).map (fun r =>
    if r.symbol = mkt then { r with rank_mom_20d := some (1 / 2) }
    else
      let moms := ((bfMerged bars mkt).filter
        (fun x => x.symbol ≠ mkt ∧ x.timestamp = r.timestamp)).filterMap (·.mom_20d)
      { r with rank_mom_20d := r.mom_20d.map (fun m => rankPct m moms) })

/-- `build_features` in terms of its stages. -/
theorem buildFeatures_eq (bars : List Bar) (mkt : String) :
    buildFeatures bars mkt =
      if (sortBars bars).filter (fun b => b.symbol = mkt) = [] then
        .error ("Market symbol " ++ mkt ++ " not found in bars. Include it in the universe.")
      else .ok ((bfRanked bars mkt).filter featuresDefined) := rfl

/-- Claim C9 (confirmed).  `build_features` raises its data error exactly
when the benchmark symbol has no bar in the input; when the benchmark is
present it succeeds, and every emitted row carries the benchmark features
left-joined at the row's own timestamp. -/
theorem spec_c9 (bars : List Bar) (mkt : String) :
    ((∃ e, buildFeatures bars mkt = .error e) ↔ ¬ ∃ b ∈ bars, b.symbol = mkt)
  ∧ ((∃ b ∈ bars, b.symbol = mkt) → ∃ out, buildFeatures bars mkt = .ok out)
  ∧ ∀ out, buildFeatures bars mkt = .ok out → ∀ r ∈ out,
      r.market_return_1d =
        (marketFeatsAt ((sortBars bars).filter (fun b => b.symbol = mkt)) r.timestamp).1 ∧
      r.market_mom_20d =
        (marketFeatsAt ((sortBars bars).filter (fun b => b.symbol = mkt)) r.timestamp).2 := by
  have hmem : ∀ b : Bar, b ∈ sortBars bars ↔ b ∈ bars := fun b => mem_isortBy _ b bars
  rw [buildFeatures_eq]
  by_cases hms : (sortBars bars).filter (fun b => b.symbol = mkt) = []
  · have hno : ¬ ∃ b ∈ bars, b.symbol = mkt := by
      rw [List.filter_eq_nil_iff] at hms
      rintro ⟨b, hb, hbs⟩
      exact hms b ((hmem b).mpr hb) (by simpa using hbs)
    rw [if_pos hms]
    exact ⟨⟨fun _ => hno, fun _ => ⟨_, rfl⟩⟩, fun h => absurd h hno,
      fun out hout => Except.noConfusion hout⟩
  · rw [if_neg hms]
    obtain ⟨b, hb⟩ := List.exists_mem_of_ne_nil _ hms
    obtain ⟨hbs, hbm⟩ := List.mem_filter.mp hb
    refine ⟨⟨fun ⟨e, he⟩ => Except.noConfusion he,
      fun h => absurd ⟨b, (hmem b).mp hbs, of_decide_eq_true hbm⟩ h⟩,
      fun _ => ⟨_, rfl⟩, fun out hout r hr => ?_⟩
    rw [Except.ok.injEq] at hout
    subst hout
    have hr1 : r ∈ bfRanked bars mkt := (List.mem_filter.mp hr).1
    unfold bfRanked at hr1
    rw [List.mem_map] at hr1
    obtain ⟨rm, hrm, rfl⟩ := hr1
    have hmk : ∀ s : FeatureRow, s ∈ bfMerged bars mkt →
        s.market_return_1d =
          (marketFeatsAt ((sortBars bars).filter (fun b => b.symbol = mkt)) s.timestamp).1 ∧
        s.market_mom_20d =
          (marketFeatsAt ((sortBars bars).filter (fun b => b.symbol = mkt)) s.timestamp).2 := by
      intro s hs
      unfold bfMerged at hs
      rw [List.mem_map] at hs
      obtain ⟨rb, _, rfl⟩ := hs
      exact ⟨rfl, rfl⟩
    obtain ⟨h1, h2⟩ := hmk rm hrm
    by_cases hrs : rm.symbol = mkt
    · simpa [if_pos hrs] using ⟨h1, h2⟩
    · simpa [if_neg hrs] using ⟨h1, h2⟩

/-- A single benchmark bar (benchmark present, but far too little history). -/
def c9Bars : List Bar :=
  [{ symbol := "SPY", timestamp := 0, high := 1, low := 1, close := 1, volume := 1 }]

/-- Claim C9 witness: with the benchmark present, `build_features` succeeds. -/
theorem spec_c9_witness :
    (∃ b ∈ c9Bars, b.symbol = "SPY") ∧ ∃ out, buildFeatures c9Bars "SPY" = .ok out :=
  have hex : ∃ b ∈ c9Bars, b.symbol = "SPY" := ⟨_, List.mem_cons_self _ _, rfl⟩
  ⟨hex, (spec_c9 c9Bars "SPY").2.1 hex⟩

/-! ## Claim C8: the sixty-day history gate -/

/-- Claim C8 (confirmed).  Whenever `build_features` succeeds, `run_backtest`
returns the insufficient-history error — before any equity-curve point is
produced — exactly when the feature frame has fewer than sixty distinct
trading days. -/
theorem spec_c8 (bars : List Bar) (p : BTParams)
    (fit : List (List ℚ × ℚ) → (List ℚ → ℚ)) (bucket : ℚ → ℤ)
    (sqrtq : ℚ → ℚ) (rng : ℕ → ℚ)
    (feats : List FeatureRow) (hok : buildFeatures bars "SPY" = .ok feats) :
    runBacktest bars p fit bucket sqrtq rng = .error "Not enough data to backtest."
      ↔ (featureDates (btRowsOf feats p.horizon_days)).length < 60 := by
  unfold runBacktest btFinalState
  rw [hok]
  by_cases hlen : (featureDates (btRowsOf feats p.horizon_days)).length < 60
  · simp only [if_pos hlen, Except.map]
    simpa using hlen
  · simp only [if_neg hlen, Except.map]
    simpa using hlen

/-- Claim C8 witness: one benchmark bar yields zero distinct trading days,
and the backtest fails with exactly the insufficient-history error. -/
theorem spec_c8_witness :
    buildFeatures c9Bars "SPY" = .ok [] ∧
    runBacktest c9Bars c3P (fun _ _ => 0) (fun _ => 0) (fun _ => 0) (fun _ => 0) =
      .error "Not enough data to backtest." :=
  have hok : buildFeatures c9Bars "SPY" = .ok [] := by with_unfolding_all rfl
  ⟨hok, (spec_c8 c9Bars c3P (fun _ _ => 0) (fun _ => 0) (fun _ => 0) (fun _ => 0)
    [] hok).mpr (by with_unfolding_all decide)⟩

/-! ## Backtest loop invariants -/

/-- Destructuring a successful simulator run into its pieces. -/
theorem btFinalState_ok {bars : List Bar} {p : BTParams}
    {fit : List (List ℚ × ℚ) → (List ℚ → ℚ)} {bucket : ℚ → ℤ}
    {sqrtq : ℚ → ℚ} {rng : ℕ → ℚ} {st : BTState}
    (hst : btFinalState bars p fit bucket sqrtq rng = .ok st) :
    ∃ feats, buildFeatures bars "SPY" = .ok feats ∧
      ¬ (featureDates (btRowsOf feats p.horizon_days)).length < 60 ∧
      st = (featureDates (btRowsOf feats p.horizon_days)).foldl
        (btStep (btRowsOf feats p.horizon_days) bars p fit sqrtq rng
          (rebalanceDates (featureDates (btRowsOf feats p.horizon_days)) bucket)) btInit := by
  unfold btFinalState at hst
  cases hfeats : buildFeatures bars "SPY" with
  | error e =>
    rw [hfeats] at hst
    exact Except.noConfusion hst
  | ok feats =>
    rw [hfeats] at hst
    simp only at hst
    split at hst
    · exact Except.noConfusion hst
    · rw [Except.ok.injEq] at hst
      exact ⟨feats, rfl, by assumption, hst.symm⟩

/-- A day's return under empty weights is zero. -/
theorem ret_fold_zero (slice : List NRow) (a : ℚ) :
    slice.foldl (fun a r => a + wlookup [] r.1.symbol * r.2.getD 0) a = a := by
  induction slice generalizing a with
  | nil => rfl
  | cons r slice ih => simp [List.foldl_cons, wlookup, ih]

/-- With `miss_rebalance_prob = 1`, zero delay, and an RNG stream inside
`[0, 1)`, one simulator step preserves: empty weights, no pending rebalance,
unit equity, zero executed rebalances, and all-zero recorded returns. -/
theorem c4_step (rowsN : List NRow) (bars : List Bar) (p : BTParams)
    (fit : List (List ℚ × ℚ) → (List ℚ → ℚ)) (sqrtq : ℚ → ℚ) (rng : ℕ → ℚ)
    (rdates : List ℚ) (st : BTState) (ts : ℚ)
    (hmiss : p.miss_rebalance_prob = 1) (hdelay : p.rebalance_delay_days = 0)
    (hrng : ∀ n, 0 ≤ rng n ∧ rng n < 1)
    (hw : st.weights = []) (hp : st.pending = none) (he : st.equity = 1)
    (hc : st.rebalCount = 0) (hr : ∀ x ∈ st.rets, x.2 = 0) :
    (btStep rowsN bars p fit sqrtq rng rdates st ts).weights = [] ∧
    (btStep rowsN bars p fit sqrtq rng rdates st ts).pending = none ∧
    (btStep rowsN bars p fit sqrtq rng rdates st ts).equity = 1 ∧
    (btStep rowsN bars p fit sqrtq rng rdates st ts).rebalCount = 0 ∧
    ∀ x ∈ (btStep rowsN bars p fit sqrtq rng rdates st ts).rets, x.2 = 0 := by
  have hlt : decide (rng st.k < p.miss_rebalance_prob) = true := by
    rw [hmiss]
    exact decide_eq_true (hrng st.k).2
  have hpos : decide ((0:ℚ) < p.miss_rebalance_prob) = true := by
    rw [hmiss]
    norm_num
  simp only [btStep, hp, hdelay, hlt, hpos]
  split
  · refine ⟨hw, rfl, he, hc, fun x hx => ?_⟩
    rcases List.mem_append.mp hx with h | h
    · exact hr x h
    · rw [List.mem_singleton.mp h]
  · simp only [Bool.or_false, Bool.and_true, Bool.and_not_self]
    simp only [if_neg (Bool.false_ne_true), Bool.false_eq_true, if_false]
    rw [hw, ret_fold_zero]
    refine ⟨rfl, by simp, by rw [he]; norm_num, hc, fun x hx => ?_⟩
    rcases List.mem_append.mp hx with h | h
    · exact hr x h
    · rw [List.mem_singleton.mp h]
      norm_num

/-- The `miss = 1` invariant carried over the whole day loop. -/
theorem c4_loop (rowsN : List NRow) (bars : List Bar) (p : BTParams)
    (fit : List (List ℚ × ℚ) → (List ℚ → ℚ)) (sqrtq : ℚ → ℚ) (rng : ℕ → ℚ)
    (rdates : List ℚ)
    (hmiss : p.miss_rebalance_prob = 1) (hdelay : p.rebalance_delay_days = 0)
    (hrng : ∀ n, 0 ≤ rng n ∧ rng n < 1) (dates : List ℚ) (st0 : BTState)
    (h0 : st0.weights = [] ∧ st0.pending = none ∧ st0.equity = 1 ∧
      st0.rebalCount = 0 ∧ ∀ x ∈ st0.rets, x.2 = 0) :
    (dates.foldl (btStep rowsN bars p fit sqrtq rng rdates) st0).weights = [] ∧
    (dates.foldl (btStep rowsN bars p fit sqrtq rng rdates) st0).pending = none ∧
    (dates.foldl (btStep rowsN bars p fit sqrtq rng rdates) st0).equity = 1 ∧
    (dates.foldl (btStep rowsN bars p fit sqrtq rng rdates) st0).rebalCount = 0 ∧
    ∀ x ∈ (dates.foldl (btStep rowsN bars p fit sqrtq rng rdates) st0).rets, x.2 = 0 := by
  induction dates generalizing st0 with
  | nil => exact h0
  | cons ts dates ih =>
    simp only [List.foldl_cons]
    obtain ⟨hw, hp, he, hc, hr⟩ := h0
    exact ih _ (c4_step rowsN bars p fit sqrtq rng rdates st0 ts hmiss hdelay hrng
      hw hp he hc hr)

/-- If every recorded daily return is zero, the result frame is flat:
all returns `0`, all equities exactly `1`. -/
theorem mkResult_zeros (rets : List (ℚ × ℚ)) (h : ∀ x ∈ rets, x.2 = 0) :
    ∀ q ∈ mkResult rets, q.2.1 = 0 ∧ q.2.2 = 1 := by
  unfold mkResult
  have hs : ∀ x ∈ isortBy (fun a b : ℚ × ℚ => decide (a.1 ≤ b.1)) rets, x.2 = 0 :=
    fun x hx => h x ((mem_isortBy _ x rets).mp hx)
  have H : ∀ (l : List (ℚ × ℚ)) (acc : ℚ × List (ℚ × ℚ × ℚ)),
      (∀ x ∈ l, x.2 = 0) → acc.1 = 1 → (∀ q ∈ acc.2, q.2.1 = 0 ∧ q.2.2 = 1) →
      ∀ q ∈ (l.foldl (fun (acc : ℚ × List (ℚ × ℚ × ℚ)) r =>
          (acc.1 * (1 + r.2), acc.2 ++ [(r.1, r.2, acc.1 * (1 + r.2))])) acc).2,
        q.2.1 = 0 ∧ q.2.2 = 1 := by
    intro l
    induction l with
    | nil => exact fun acc _ _ h3 q hq => h3 q hq
    | cons r l ih =>
      intro acc h1 h2 h3
      simp only [List.foldl_cons]
      refine ih _ (fun x hx => h1 x (List.mem_cons_of_mem r hx)) ?_ ?_
      · show acc.1 * (1 + r.2) = 1
        rw [h1 r (List.mem_cons_self r l), h2]
        norm_num
      · intro q hq
        rcases List.mem_append.mp hq with hq | hq
        · exact h3 q hq
        · rw [List.mem_singleton.mp hq]
          have hz := h1 r (List.mem_cons_self r l)
          exact ⟨hz, by rw [hz, h2]; norm_num⟩
  exact H _ (1, []) hs rfl (by simp)

/-- Claim C4 (confirmed).  With `miss_rebalance_prob = 1` and
`rebalance_delay_days = 0` (the RNG stream lying in `[0, 1)`, as
`random.random` guarantees), every scheduled rebalance is missed: on any
accepted input the simulator executes zero rebalances, the weight map stays
at its initial empty value, every recorded daily return is zero, and the
returned equity curve is flat at exactly `1`. -/
theorem spec_c4 (bars : List Bar) (p : BTParams)
    (fit : List (List ℚ × ℚ) → (List ℚ → ℚ)) (bucket : ℚ → ℤ)
    (sqrtq : ℚ → ℚ) (rng : ℕ → ℚ)
    (hmiss : p.miss_rebalance_prob = 1) (hdelay : p.rebalance_delay_days = 0)
    (hrng : ∀ n, 0 ≤ rng n ∧ rng n < 1) :
    (∀ st, btFinalState bars p fit bucket sqrtq rng = .ok st →
        st.weights = [] ∧ st.rebalCount = 0 ∧ st.equity = 1 ∧ ∀ x ∈ st.rets, x.2 = 0)
  ∧ ∀ out, runBacktest bars p fit bucket sqrtq rng = .ok out →
      ∀ q ∈ out, q.2.1 = 0 ∧ q.2.2 = 1 := by
  have hfs : ∀ st, btFinalState bars p fit bucket sqrtq rng = .ok st →
      st.weights = [] ∧ st.rebalCount = 0 ∧ st.equity = 1 ∧ ∀ x ∈ st.rets, x.2 = 0 := by
    intro st hst
    obtain ⟨feats, _, _, rfl⟩ := btFinalState_ok hst
    have hi := c4_loop (btRowsOf feats p.horizon_days) bars p fit sqrtq rng
      (rebalanceDates (featureDates (btRowsOf feats p.horizon_days)) bucket)
      hmiss hdelay hrng (featureDates (btRowsOf feats p.horizon_days)) btInit
      ⟨rfl, rfl, rfl, rfl, by simp [btInit]⟩
    exact ⟨hi.1, hi.2.2.2.1, hi.2.2.1, hi.2.2.2.2⟩
  refine ⟨hfs, fun out hout => ?_⟩
  unfold runBacktest at hout
  cases hbs : btFinalState bars p fit bucket sqrtq rng with
  | error e =>
    rw [hbs] at hout
    exact Except.noConfusion hout
  | ok st =>
    rw [hbs] at hout
    simp only [Except.map] at hout
    rw [Except.ok.injEq] at hout
    subst hout
    exact mkResult_zeros st.rets (hfs st hbs).2.2.2

/-- Eighty flat trading days for one traded symbol plus the benchmark —
enough history for the sixty-day gate. -/
def wBars : List Bar :=
  ((List.range 80).map (fun i =>
    ({ symbol := "AAA", timestamp := (i : ℚ), high := 1, low := 1,
       close := 1, volume := 1 } : Bar))) ++
  ((List.range 80).map (fun i =>
    ({ symbol := "SPY", timestamp := (i : ℚ), high := 1, low := 1,
       close := 1, volume := 1 } : Bar)))

/-- Parameters with `miss_rebalance_prob = 1` and no rebalance delay. -/
def wParams : BTParams :=
  { horizon_days := 1, min_long_return := 0, max_short_return := 0,
    gross_leverage := 1, top_k := 3, max_position_pct := 1, tcost_bps := 0,
    bear_leverage := 1, lookback_days := 30, min_price := 0,
    min_dollar_vol := 0, vol_target := 0, vol_window := 10,
    max_drawdown := 0, min_leverage := 0, miss_rebalance_prob := 1,
    rebalance_delay_days := 0 }

/-- Claim C4 witness: the eighty-day input is accepted (the run returns a
result frame), and by the theorem that frame is flat at equity `1` with all
returns zero. -/
theorem spec_c4_witness :
    wParams.miss_rebalance_prob = 1 ∧ wParams.rebalance_delay_days = 0 ∧
    (match runBacktest wBars wParams (fun _ _ => 0) (fun _ => 0) (fun _ => 0)
        (fun _ => 0) with
      | .ok _ => true
      | .error _ => false) = true ∧
    ∀ out, runBacktest wBars wParams (fun _ _ => 0) (fun _ => 0) (fun _ => 0)
        (fun _ => 0) = .ok out →
      ∀ q ∈ out, q.2.1 = 0 ∧ q.2.2 = 1 :=
  ⟨rfl, rfl, by with_unfolding_all decide,
   (spec_c4 wBars wParams (fun _ _ => 0) (fun _ => 0) (fun _ => 0) (fun _ => 0) rfl rfl
     (fun _ => ⟨le_refl 0, by norm_num⟩)).2⟩

/-! ## Claim C7: reproducibility and seed-independence of model computations -/

/-- One step either leaves the prediction log unchanged or appends exactly
the canonical predictions of the day. -/
theorem predLog_step (rowsN : List NRow) (bars : List Bar) (p : BTParams)
    (fit : List (List ℚ × ℚ) → (List ℚ → ℚ)) (sqrtq : ℚ → ℚ) (rng : ℕ → ℚ)
    (rdates : List ℚ) (st : BTState) (ts : ℚ) :
    (btStep rowsN bars p fit sqrtq rng rdates st ts).predLog = st.predLog ∨
    (btStep rowsN bars p fit sqrtq rng rdates st ts).predLog =
      st.predLog ++ [(ts, dayPreds rowsN p fit ts)] := by
  simp only [btStep]
  split
  · exact Or.inl rfl
  · split
    · exact Or.inr rfl
    · exact Or.inl rfl

/-- Every entry of the prediction log records the canonical predictions of
its day — a function of the feature frame, the parameters and the abstract
regressor only, independent of the RNG stream and of the simulator state. -/
theorem predLog_loop (rowsN : List NRow) (bars : List Bar) (p : BTParams)
    (fit : List (List ℚ × ℚ) → (List ℚ → ℚ)) (sqrtq : ℚ → ℚ) (rng : ℕ → ℚ)
    (rdates : List ℚ) (dates : List ℚ) (st0 : BTState)
    (h0 : ∀ e ∈ st0.predLog, e.2 = dayPreds rowsN p fit e.1) :
    ∀ e ∈ (dates.foldl (btStep rowsN bars p fit sqrtq rng rdates) st0).predLog,
      e.2 = dayPreds rowsN p fit e.1 := by
  induction dates generalizing st0 with
  | nil => exact h0
  | cons ts dates ih =>
    simp only [List.foldl_cons]
    refine ih _ ?_
    rcases predLog_step rowsN bars p fit sqrtq rng rdates st0 ts with h | h
    · rw [h]
      exact h0
    · rw [h]
      intro e he
      rcases List.mem_append.mp he with h' | h'
      · exact h0 e h'
      · rw [List.mem_singleton.mp h']

/-- Claim C7 (confirmed).  Two runs with identical bars, parameters,
regressor, bucketing, square root and RNG stream produce identical results
(the simulator is a pure function of the caller-supplied seed stream); and
for two runs differing only in RNG stream, any day on which both executed a
rebalance consumed identical model predictions — the canonical
`dayPreds` of the shared feature frame — regardless of the seed-dependent
path by which each run arrived there. -/
theorem spec_c7 (bars : List Bar) (p : BTParams)
    (fit : List (List ℚ × ℚ) → (List ℚ → ℚ)) (bucket : ℚ → ℤ)
    (sqrtq : ℚ → ℚ) (r1 r2 : ℕ → ℚ) :
    (r1 = r2 →
      runBacktest bars p fit bucket sqrtq r1 = runBacktest bars p fit bucket sqrtq r2)
  ∧ ∀ st1 st2, btFinalState bars p fit bucket sqrtq r1 = .ok st1 →
      btFinalState bars p fit bucket sqrtq r2 = .ok st2 →
      ∀ ts ps1 ps2, (ts, ps1) ∈ st1.predLog → (ts, ps2) ∈ st2.predLog → ps1 = ps2 := by
  constructor
  · rintro rfl
    rfl
  · intro st1 st2 h1 h2 ts ps1 ps2 hm1 hm2
    obtain ⟨f1, hf1, _, rfl⟩ := btFinalState_ok h1
    obtain ⟨f2, hf2, _, rfl⟩ := btFinalState_ok h2
    rw [hf1, Except.ok.injEq] at hf2
    subst hf2
    have e1 := predLog_loop (btRowsOf f1 p.horizon_days) bars p fit sqrtq r1
      (rebalanceDates (featureDates (btRowsOf f1 p.horizon_days)) bucket)
      (featureDates (btRowsOf f1 p.horizon_days)) btInit (by simp [btInit])
      (ts, ps1) hm1
    have e2 := predLog_loop (btRowsOf f1 p.horizon_days) bars p fit sqrtq r2
      (rebalanceDates (featureDates (btRowsOf f1 p.horizon_days)) bucket)
      (featureDates (btRowsOf f1 p.horizon_days)) btInit (by simp [btInit])
      (ts, ps2) hm2
    simp only at e1 e2
    rw [e1, e2]

/-- Claim C7 witness: equal seed streams give bit-identical results at a
concrete input. -/
theorem spec_c7_witness :
    runBacktest c9Bars c3P (fun _ _ => 0) (fun _ => 0) (fun _ => 0) (fun _ => 0) =
      runBacktest c9Bars c3P (fun _ _ => 0) (fun _ => 0) (fun _ => 0) (fun _ => 0) :=
  (spec_c7 c9Bars c3P (fun _ _ => 0) (fun _ => 0) (fun _ => 0) (fun _ => 0)
    (fun _ => 0)).1 rfl

/-! ## Claim C10: shorting is unconditional in the backtest -/

theorem isortInsert_length {α : Type} (le : α → α → Bool) (x : α) (l : List α) :
    (isortInsert le x l).length = l.length + 1 := by
  induction l with
  | nil => rfl
  | cons a l ih =>
    unfold isortInsert
    split
    · rfl
    · simp [ih]

theorem isortBy_length {α : Type} (le : α → α → Bool) (l : List α) :
    (isortBy le l).length = l.length := by
  induction l with
  | nil => rfl
  | cons a l ih => simp [isortBy, isortInsert_length, ih]

/-- One step either leaves the weight log unchanged or appends the day's
weight map, built by `_inverse_vol_weights` with `allow_shorts = True` at
the effective leverage of that day's state. -/
theorem wLog_step (rowsN : List NRow) (bars : List Bar) (p : BTParams)
    (fit : List (List ℚ × ℚ) → (List ℚ → ℚ)) (sqrtq : ℚ → ℚ) (rng : ℕ → ℚ)
    (rdates : List ℚ) (st : BTState) (ts : ℚ) :
    (btStep rowsN bars p fit sqrtq rng rdates st ts).wLog = st.wLog ∨
    (btStep rowsN bars p fit sqrtq rng rdates st ts).wLog =
      st.wLog ++ [(ts, levFor bars p sqrtq st.equity st.curve ts,
        inverseVolWeights (scoredFor rowsN p fit ts) p.top_k p.min_long_return
          p.max_short_return (levFor bars p sqrtq st.equity st.curve ts)
          p.max_position_pct true)] := by
  simp only [btStep]
  split
  · exact Or.inl rfl
  · split
    · exact Or.inr rfl
    · exact Or.inl rfl

/-- Every weight map an executed rebalance installed was produced by
`_inverse_vol_weights` with the literal `allow_shorts = True`, at the
leverage recorded beside it. -/
theorem wLog_loop (rowsN : List NRow) (bars : List Bar) (p : BTParams)
    (fit : List (List ℚ × ℚ) → (List ℚ → ℚ)) (sqrtq : ℚ → ℚ) (rng : ℕ → ℚ)
    (rdates : List ℚ) (dates : List ℚ) (st0 : BTState)
    (h0 : ∀ e ∈ st0.wLog, e.2.2 = inverseVolWeights (scoredFor rowsN p fit e.1)
      p.top_k p.min_long_return p.max_short_return e.2.1 p.max_position_pct true) :
    ∀ e ∈ (dates.foldl (btStep rowsN bars p fit sqrtq rng rdates) st0).wLog,
      e.2.2 = inverseVolWeights (scoredFor rowsN p fit e.1) p.top_k
        p.min_long_return p.max_short_return e.2.1 p.max_position_pct true := by
  induction dates generalizing st0 with
  | nil => exact h0
  | cons ts dates ih =>
    simp only [List.foldl_cons]
    refine ih _ ?_
    rcases wLog_step rowsN bars p fit sqrtq rng rdates st0 ts with h | h
    · rw [h]
      exact h0
    · rw [h]
      intro e he
      rcases List.mem_append.mp he with h' | h'
      · exact h0 e h'
      · rw [List.mem_singleton.mp h']

/-- With shorting allowed, the gross leverage is split evenly: each book is
bounded by `g / 2`. -/
theorem inverseVolWeights_split (slice : List SRow) (topk : ℕ)
    (minLong maxShort g cap : ℚ) (hg : 0 ≤ g) (hcap : 0 ≤ cap) :
    posSum (inverseVolWeights slice topk minLong maxShort g cap true) ≤ g / 2 ∧
    negSum (inverseVolWeights slice topk minLong maxShort g cap true) ≤ g / 2 := by
  have hg2 : 0 ≤ g / 2 := by linarith
  rcases eq_or_ne slice [] with rfl | hs
  · constructor
    · simpa [inverseVolWeights, posSum] using hg2
    · simpa [inverseVolWeights, negSum] using hg2
  · simp only [inverseVolWeights, if_neg hs, eq_self_iff_true, if_true]
    obtain ⟨h0p, h0n, h0k, h0e⟩ := long_if_props (fun r : SRow => r.symbol)
      (fun r => 1 / max r.vol (1 / 1000000)) srow_inv_pos
      ((isortBy (fun a b : SRow => decide (b.pred ≤ a.pred))
        (slice.filter (fun r : SRow => decide (minLong ≤ r.pred)))).take topk) cap (g / 2) hcap hg2
    obtain ⟨_, hsP, hsN, _⟩ := short_if_props (fun r : SRow => r.symbol)
      (fun r => 1 / max r.vol (1 / 1000000)) srow_inv_pos
      ((isortBy (fun a b : SRow => decide (a.pred ≤ b.pred))
        (slice.filter (fun r : SRow => decide (r.pred ≤ maxShort)))).take topk)
      cap (g / 2) (g / 2) hcap hg2 _ h0k h0e h0p h0n
    exact ⟨hsP, hsN⟩

/-- When any candidate predicts at or below `max_short_return` (with
positive leverage and cap, and `top_k ≥ 1`), the weight map built with
shorting allowed contains a genuinely negative position. -/
theorem inverseVolWeights_short_entry (slice : List SRow) (topk : ℕ)
    (minLong maxShort g cap : ℚ) (hg : 0 < g) (hcap : 0 < cap) (htopk : 1 ≤ topk)
    (hex : ∃ r ∈ slice, r.pred ≤ maxShort) :
    ∃ e ∈ inverseVolWeights slice topk minLong maxShort g cap true, e.2 < 0 := by
  obtain ⟨r0, hr0, hr0s⟩ := hex
  have hslice : slice ≠ [] := by
    rintro rfl
    exact absurd hr0 (List.not_mem_nil r0)
  simp only [inverseVolWeights, if_neg hslice, eq_self_iff_true, if_true]
  have hf : r0 ∈ slice.filter (fun r : SRow => decide (r.pred ≤ maxShort)) :=
    List.mem_filter.mpr ⟨hr0, decide_eq_true hr0s⟩
  have hne : (isortBy (fun a b : SRow => decide (a.pred ≤ b.pred))
      (slice.filter (fun r : SRow => decide (r.pred ≤ maxShort)))).take topk ≠ [] := by
    intro htake
    have hlen := congrArg List.length htake
    rw [List.length_take, isortBy_length] at hlen
    have hpos := List.length_pos_of_mem hf
    simp only [List.length_nil] at hlen
    omega
  rw [if_pos hne]
  have hT : 0 < (((isortBy (fun a b : SRow => decide (a.pred ≤ b.pred))
      (slice.filter (fun r : SRow => decide (r.pred ≤ maxShort)))).take topk).map
        (fun r => 1 / max r.vol (1 / 1000000))).sum := by
    refine List.sum_pos _ (fun x hx => ?_) (by simpa using hne)
    obtain ⟨r, _, rfl⟩ := List.mem_map.mp hx
    exact srow_inv_pos r
  obtain ⟨r, hrmem, hrin⟩ := foldl_dinsert_last (fun r : SRow => r.symbol)
    (fun r => -min cap (1 / max r.vol (1 / 1000000) /
      (((isortBy (fun a b : SRow => decide (a.pred ≤ b.pred))
        (slice.filter (fun r : SRow => decide (r.pred ≤ maxShort)))).take topk).map
          (fun r => 1 / max r.vol (1 / 1000000))).sum * (g / 2)))
    ((isortBy (fun a b : SRow => decide (a.pred ≤ b.pred))
      (slice.filter (fun r : SRow => decide (r.pred ≤ maxShort)))).take topk) _ hne
  refine ⟨_, hrin, ?_⟩
  have hx : 0 < 1 / max r.vol (1 / 1000000) /
      (((isortBy (fun a b : SRow => decide (a.pred ≤ b.pred))
        (slice.filter (fun r : SRow => decide (r.pred ≤ maxShort)))).take topk).map
          (fun r => 1 / max r.vol (1 / 1000000))).sum * (g / 2) :=
    mul_pos (div_pos (srow_inv_pos r) hT) (by linarith)
  simp only
  rw [neg_lt, neg_zero]
  exact lt_min hcap hx

/-- Claim C10 (confirmed).  The backtest path permits shorting
unconditionally: every weight map an executed rebalance installs comes from
`_inverse_vol_weights` invoked with the literal `allow_shorts = True` (the
`run_backtest` signature offers no input to change this); consequently the
gross leverage is split evenly — each book bounded by `g/2` — and whenever
any eligible candidate predicts at or below `max_short_return` (with
positive leverage, positive cap and `top_k ≥ 1`) the installed map holds an
actual short position. -/
theorem spec_c10 (bars : List Bar) (p : BTParams)
    (fit : List (List ℚ × ℚ) → (List ℚ → ℚ)) (bucket : ℚ → ℤ)
    (sqrtq : ℚ → ℚ) (rng : ℕ → ℚ)
    (feats : List FeatureRow) (hfeats : buildFeatures bars "SPY" = .ok feats) :
    (∀ st, btFinalState bars p fit bucket sqrtq rng = .ok st →
        ∀ e ∈ st.wLog, e.2.2 = inverseVolWeights
          (scoredFor (btRowsOf feats p.horizon_days) p fit e.1) p.top_k
          p.min_long_return p.max_short_return e.2.1 p.max_position_pct true)
  ∧ (∀ (slice : List SRow) (topk : ℕ) (minLong maxShort g cap : ℚ),
        0 ≤ g → 0 ≤ cap →
        posSum (inverseVolWeights slice topk minLong maxShort g cap true) ≤ g / 2 ∧
        negSum (inverseVolWeights slice topk minLong maxShort g cap true) ≤ g / 2)
  ∧ (∀ (slice : List SRow) (topk : ℕ) (minLong maxShort g cap : ℚ),
        0 < g → 0 < cap → 1 ≤ topk → (∃ r ∈ slice, r.pred ≤ maxShort) →
        ∃ e ∈ inverseVolWeights slice topk minLong maxShort g cap true, e.2 < 0) := by
  refine ⟨?_,
    fun slice topk minLong maxShort g cap hg hcap =>
      inverseVolWeights_split slice topk minLong maxShort g cap hg hcap,
    fun slice topk minLong maxShort g cap hg hcap htopk hex =>
      inverseVolWeights_short_entry slice topk minLong maxShort g cap hg hcap htopk hex⟩
  intro st hst
  obtain ⟨f', hf', _, rfl⟩ := btFinalState_ok hst
  rw [hfeats, Except.ok.injEq] at hf'
  subst hf'
  exact wLog_loop (btRowsOf feats p.horizon_days) bars p fit sqrtq rng
    (rebalanceDates (featureDates (btRowsOf feats p.horizon_days)) bucket)
    (featureDates (btRowsOf feats p.horizon_days)) btInit (by simp [btInit])

/-- Claim C10 witness: a single short candidate at top-k `1`, leverage `1`,
cap `1/2` yields a weight map with a negative entry. -/
theorem spec_c10_witness :
    (0:ℚ) < 1 ∧ (0:ℚ) < 1/2 ∧ 1 ≤ 1 ∧
    (∃ r ∈ [(⟨"CCC", -1/10, 1/100⟩ : SRow)], r.pred ≤ (0:ℚ)) ∧
    ∃ e ∈ inverseVolWeights [⟨"CCC", -1/10, 1/100⟩] 1 0 0 1 (1/2) true, e.2 < 0 :=
  have h := (spec_c10 c9Bars c3P (fun _ _ => 0) (fun _ => 0) (fun _ => 0) (fun _ => 0)
    [] (by with_unfolding_all rfl)).2.2
  ⟨by norm_num, by norm_num, le_refl 1,
   ⟨_, List.mem_singleton.mpr rfl, by norm_num⟩,
   h [⟨"CCC", -1/10, 1/100⟩] 1 0 0 1 (1/2) (by norm_num) (by norm_num) (le_refl 1)
     ⟨_, List.mem_singleton.mpr rfl, by norm_num⟩⟩

/-! ## Claim C2: the feature warm-up boundary -/

theorem allSome_isSome (l : List (Option ℚ)) :
    (allSome l).isSome ↔ ∀ o ∈ l, o.isSome := by
  induction l with
  | nil => simp [allSome]
  | cons o l ih =>
    cases o with
    | none => simp [allSome]
    | some x => simp [allSome, ih]

theorem range_map_getD {α : Type} (f : ℕ → α) (n i : ℕ) (d : α) (h : i < n) :
    ((List.range n).map f).getD i d = f i := by
  rw [List.getD_eq_getElem _ d (by simpa using h), List.getElem_map, List.getElem_range]

theorem pctChange_isSome (closes : List ℚ) (k i : ℕ) :
    (pctChange closes k i).isSome ↔ k ≤ i ∧ i < closes.length := by
  unfold pctChange
  split
  · rename_i hcond
    simp [hcond]
  · rename_i hcond
    simp [hcond]

/-- Definedness of the 20-day rolling standard deviation of daily returns:
available exactly from the 21st bar on. -/
theorem vol_isSome (closes : List ℚ) (i : ℕ) (h : i < closes.length) :
    (rollingApply sampleVar
      ((List.range closes.length).map (fun j => pctChange closes 1 j)) 20 i).isSome
    ↔ 20 ≤ i := by
  unfold rollingApply
  constructor
  · intro hs
    split at hs
    · rename_i hcond
      rw [Option.isSome_map'] at hs
      rw [allSome_isSome] at hs
      have hcell := hs (((List.range closes.length).map
        (fun j => pctChange closes 1 j)).getD (i - 19) none) (by
          unfold windowList
          exact List.mem_map.mpr ⟨19, by simp, rfl⟩)
      rw [range_map_getD _ _ _ _ (by omega)] at hcell
      rw [pctChange_isSome] at hcell
      omega
    · simp at hs
  · intro h20
    rw [if_pos ⟨by omega, by simpa using h⟩, Option.isSome_map', allSome_isSome]
    intro o ho
    unfold windowList at ho
    obtain ⟨j, hj, rfl⟩ := List.mem_map.mp ho
    rw [List.mem_range] at hj
    rw [range_map_getD _ _ _ _ (by omega), pctChange_isSome]
    omega

/-- Definedness of a rolling mean over an everywhere-defined column. -/
theorem rolling_some_isSome (g : List ℚ → ℚ) (vals : List (Option ℚ))
    (hvals : ∀ o ∈ vals, o.isSome) (w i : ℕ) :
    (rollingApply g vals w i).isSome ↔ w ≤ i + 1 ∧ i < vals.length := by
  unfold rollingApply
  split
  · rename_i hcond
    simp only [Option.isSome_map', allSome_isSome]
    constructor
    · intro _
      exact hcond
    · intro _ o ho
      unfold windowList at ho
      obtain ⟨j, hj, rfl⟩ := List.mem_map.mp ho
      rw [List.mem_range] at hj
      by_cases hin : i - j < vals.length
      · refine hvals _ ?_
        rw [List.getD_eq_getElem vals none (by simpa using hin)]
        exact List.getElem_mem _
      · rw [List.getD_eq_default _ _ (by omega)]
        omega
  · rename_i hcond
    exact iff_of_false (by simp) hcond

/-- A sorted list is a fixed point of insertion sort. -/
theorem isortBy_eq_self {α : Type} (le : α → α → Bool) (l : List α)
    (h : l.Pairwise (fun a b => le a b = true)) : isortBy le l = l := by
  induction l with
  | nil => rfl
  | cons x xs ih =>
    rw [List.pairwise_cons] at h
    obtain ⟨hx, hxs⟩ := h
    unfold isortBy
    rw [ih hxs]
    cases xs with
    | nil => rfl
    | cons y ys =>
      unfold isortInsert
      rw [if_pos (hx y (List.mem_cons_self y ys))]

/-- One bar of the aligned synthetic universe. -/
def gridBar (grid : ℕ → ℚ) (hi lo cl vo : String → ℕ → ℚ) (s : String) (i : ℕ) : Bar :=
  { symbol := s, timestamp := grid i, high := hi s i, low := lo s i,
    close := cl s i, volume := vo s i }

/-- One symbol's bars on the shared trading-day grid. -/
def gridSeries (grid : ℕ → ℚ) (hi lo cl vo : String → ℕ → ℚ) (n : ℕ) (s : String) : List Bar :=
  (List.range n).map (gridBar grid hi lo cl vo s)

/-- The aligned universe: every symbol of `S` has a bar on each of the `n`
shared trading days. -/
def gridBars (grid : ℕ → ℚ) (hi lo cl vo : String → ℕ → ℚ) (S : List String) (n : ℕ) : List Bar :=
  (S.map (gridSeries grid hi lo cl vo n)).flatten

/-- The aligned universe is already (symbol, timestamp)-sorted. -/
theorem sortBars_gridBars (grid : ℕ → ℚ) (hi lo cl vo : String → ℕ → ℚ)
    (S : List String) (n : ℕ)
    (hS : S.Pairwise (fun a b => a < b))
    (hgrid : ∀ j, j < n → ∀ i, i < j → grid i < grid j) :
    sortBars (gridBars grid hi lo cl vo S n) = gridBars grid hi lo cl vo S n := by
  apply isortBy_eq_self
  unfold gridBars
  rw [List.pairwise_flatten]
  have hrange : (List.range n).Pairwise (fun i j => i < j ∧ j < n) :=
    List.Pairwise.imp_of_mem (fun ha hb hab => ⟨hab, List.mem_range.mp hb⟩)
      (List.pairwise_lt_range n)
  refine ⟨?_, ?_⟩
  · intro l hl
    rw [List.mem_map] at hl
    obtain ⟨s, _, rfl⟩ := hl
    unfold gridSeries
    refine List.Pairwise.map _ ?_ hrange
    intro i j hij
    show (decide ((gridBar grid hi lo cl vo s i).symbol < (gridBar grid hi lo cl vo s j).symbol)
      || ((gridBar grid hi lo cl vo s i).symbol == (gridBar grid hi lo cl vo s j).symbol
          && decide ((gridBar grid hi lo cl vo s i).timestamp ≤ (gridBar grid hi lo cl vo s j).timestamp))) = true
    unfold gridBar
    simp only
    have hle : grid i ≤ grid j := le_of_lt (hgrid j hij.2 i hij.1)
    simp [hle]
  · refine List.Pairwise.map _ ?_ hS
    intro s s' hss x hx y hy
    unfold gridSeries at hx hy
    obtain ⟨i, _, rfl⟩ := List.mem_map.mp hx
    obtain ⟨j, _, rfl⟩ := List.mem_map.mp hy
    show (decide ((gridBar grid hi lo cl vo s i).symbol < (gridBar grid hi lo cl vo s' j).symbol)
      || ((gridBar grid hi lo cl vo s i).symbol == (gridBar grid hi lo cl vo s' j).symbol
          && decide ((gridBar grid hi lo cl vo s i).timestamp ≤ (gridBar grid hi lo cl vo s' j).timestamp))) = true
    unfold gridBar
    simp only
    simp [hss]

theorem dedup_replicate_append (s : String) (l : List String) (n : ℕ) (hn : 0 < n)
    (hs : s ∉ l) : (List.replicate n s ++ l).dedup = s :: l.dedup := by
  induction n with
  | zero => omega
  | succ n ih =>
    rcases Nat.eq_zero_or_pos n with rfl | hn'
    · show (List.replicate 1 s ++ l).dedup = s :: l.dedup
      rw [List.replicate_one, List.singleton_append]
      exact List.dedup_cons_of_not_mem hs
    · rw [List.replicate_succ, List.cons_append, List.dedup_cons_of_mem
        (List.mem_append_left _ (List.mem_replicate.mpr ⟨by omega, rfl⟩))]
      exact ih hn'

/-- The distinct symbols of the aligned universe, in order. -/
theorem symbols_gridBars (grid : ℕ → ℚ) (hi lo cl vo : String → ℕ → ℚ)
    (S : List String) (n : ℕ) (hn : 0 < n) (hS : S.Nodup) :
    ((gridBars grid hi lo cl vo S n).map (fun b => b.symbol)).dedup = S := by
  induction S with
  | nil => simp [gridBars]
  | cons s S ih =>
    rw [List.nodup_cons] at hS
    obtain ⟨hs, hS'⟩ := hS
    unfold gridBars
    simp only [List.map_cons, List.flatten_cons, List.map_append]
    have hblock : (gridSeries grid hi lo cl vo n s).map (fun b => b.symbol) =
        List.replicate n s := by
      unfold gridSeries gridBar
      rw [List.map_map]
      show (List.range n).map (fun _ => s) = _
      rw [List.map_const', List.length_range]
    rw [hblock, dedup_replicate_append s _ n hn ?notmem]
    · unfold gridBars at ih
      rw [ih hS']
    case notmem =>
      intro hmem
      rw [List.mem_map] at hmem
      obtain ⟨b, hb, hbs⟩ := hmem
      rw [List.mem_flatten] at hb
      obtain ⟨blk, hblk, hbblk⟩ := hb
      obtain ⟨t, ht, rfl⟩ := List.mem_map.mp hblk
      obtain ⟨i, _, rfl⟩ := List.mem_map.mp hbblk
      exact hs (hbs ▸ ht)

/-- Selecting one symbol of the aligned universe returns exactly its own
series. -/
theorem filter_gridBars (grid : ℕ → ℚ) (hi lo cl vo : String → ℕ → ℚ)
    (S : List String) (n : ℕ) (s : String) (hs : s ∈ S) (hS : S.Nodup) :
    (gridBars grid hi lo cl vo S n).filter (fun b => b.symbol = s) =
      gridSeries grid hi lo cl vo n s := by
  induction S with
  | nil => cases hs
  | cons s' S ih =>
    rw [List.nodup_cons] at hS
    obtain ⟨hnot, hS'⟩ := hS
    unfold gridBars
    simp only [List.map_cons, List.flatten_cons, List.filter_append]
    rcases List.mem_cons.mp hs with rfl | hmem
    · have h1 : (gridSeries grid hi lo cl vo n s).filter (fun b => b.symbol = s) =
          gridSeries grid hi lo cl vo n s := by
        refine List.filter_eq_self.mpr (fun b hb => ?_)
        obtain ⟨i, _, rfl⟩ := List.mem_map.mp hb
        exact decide_eq_true rfl
      have h2 : ((S.map (gridSeries grid hi lo cl vo n)).flatten).filter
          (fun b => b.symbol = s) = [] := by
        refine List.filter_eq_nil_iff.mpr (fun b hb => ?_)
        rw [List.mem_flatten] at hb
        obtain ⟨blk, hblk, hbblk⟩ := hb
        obtain ⟨t, ht, rfl⟩ := List.mem_map.mp hblk
        obtain ⟨i, _, rfl⟩ := List.mem_map.mp hbblk
        simp only [decide_eq_true_eq]
        show ¬ t = s
        intro h
        exact hnot (h ▸ ht)
      rw [h1, h2, List.append_nil]
    · have hne : s' ≠ s := fun h => hnot (h ▸ hmem)
      have h1 : (gridSeries grid hi lo cl vo n s').filter (fun b => b.symbol = s) = [] := by
        refine List.filter_eq_nil_iff.mpr (fun b hb => ?_)
        obtain ⟨i, _, rfl⟩ := List.mem_map.mp hb
        simp only [decide_eq_true_eq]
        exact hne
      rw [h1, List.nil_append]
      unfold gridBars at ih
      exact ih hmem hS'

theorem tsIndex_cons (b : Bar) (rest : List Bar) (t : ℚ) :
    tsIndex (b :: rest) t =
      if b.timestamp = t then some 0 else (tsIndex rest t).map (· + 1) := rfl

theorem tsIndex_append (l1 l2 : List Bar) (t : ℚ) (h : ∀ b ∈ l1, b.timestamp ≠ t) :
    tsIndex (l1 ++ l2) t = (tsIndex l2 t).map (· + l1.length) := by
  induction l1 with
  | nil =>
    rw [List.nil_append]
    cases tsIndex l2 t <;> simp
  | cons b l1 ih =>
    have hb : b.timestamp ≠ t := h b (List.mem_cons_self b l1)
    have ih' := ih (fun x hx => h x (List.mem_cons_of_mem _ hx))
    show tsIndex (b :: (l1 ++ l2)) t = _
    rw [tsIndex_cons, if_neg hb, ih']
    cases tsIndex l2 t with
    | none => simp
    | some m =>
      simp only [Option.map_some', List.length_cons]
      exact congrArg some (by omega)

/-- The merge key of timestamp `grid i` hits exactly position `i` of the
benchmark series. -/
theorem tsIndex_gridSeries (grid : ℕ → ℚ) (hi lo cl vo : String → ℕ → ℚ)
    (n i : ℕ) (s : String) (hin : i < n)
    (hgrid : ∀ j, j < n → ∀ m, m < j → grid m < grid j) :
    tsIndex (gridSeries grid hi lo cl vo n s) (grid i) = some i := by
  have hn : i + (n - i) = n := by omega
  unfold gridSeries
  rw [← hn, List.range_add, List.map_append, tsIndex_append]
  · obtain ⟨m, hm⟩ : ∃ m, n - i = m + 1 := ⟨n - i - 1, by omega⟩
    rw [hm, List.range_succ_eq_map]
    simp only [List.map_cons]
    have h2 : tsIndex (gridBar grid hi lo cl vo s (i + 0) ::
        (((List.range m).map Nat.succ).map (fun x => i + x)).map (gridBar grid hi lo cl vo s))
        (grid i) = some 0 := by
      rw [tsIndex_cons]
      unfold gridBar
      rw [if_pos (by simp)]
    rw [h2]
    simp [List.length_map, List.length_range]
  · intro b hb
    rw [List.mem_map] at hb
    obtain ⟨j, hj, rfl⟩ := hb
    rw [List.mem_range] at hj
    unfold gridBar
    simp only
    exact ne_of_lt (hgrid i hin j hj)

theorem range_filter_ge (n k : ℕ) :
    (List.range n).filter (fun i => decide (k ≤ i)) = (List.range n).drop k := by
  rcases le_or_lt k n with h | h
  · have hn : k + (n - k) = n := by omega
    rw [← hn, List.range_add, List.filter_append]
    have h1 : (List.range k).filter (fun i => decide (k ≤ i)) = [] := by
      refine List.filter_eq_nil_iff.mpr (fun i hi => ?_)
      rw [List.mem_range] at hi
      simp only [decide_eq_true_eq]
      omega
    have h2 : ((List.range (n - k)).map (k + ·)).filter (fun i => decide (k ≤ i)) =
        (List.range (n - k)).map (k + ·) := by
      refine List.filter_eq_self.mpr (fun i hi => ?_)
      obtain ⟨j, _, rfl⟩ := List.mem_map.mp hi
      simp
    rw [h1, h2, List.nil_append]
    have hd := List.drop_left (List.range k) ((List.range (n - k)).map (k + ·))
    rw [List.length_range] at hd
    rw [hd]
  · have h1 : (List.range n).filter (fun i => decide (k ≤ i)) = [] := by
      refine List.filter_eq_nil_iff.mpr (fun i hi => ?_)
      rw [List.mem_range] at hi
      simp only [decide_eq_true_eq]
      omega
    rw [h1, List.drop_eq_nil_of_le (by simpa using le_of_lt h)]

/-- The row built by `symbolRows` at position `i` of a symbol's series. -/
def symbolRowAt (sbars : List Bar) (i : ℕ) : FeatureRow :=
  { symbol := (sbars.getD i default).symbol
    timestamp := (sbars.getD i default).timestamp
    close := (sbars.map (·.close)).getD i 0
    return_1d := pctChange (sbars.map (·.close)) 1 i
    return_5d := pctChange (sbars.map (·.close)) 5 i
    return_10d := pctChange (sbars.map (·.close)) 10 i
    mom_20d := pctChange (sbars.map (·.close)) 20 i
    vol_20d := rollingApply sampleVar
      ((List.range sbars.length).map (fun j => pctChange (sbars.map (·.close)) 1 j)) 20 i
    range_5d := rollingApply qmean (sbars.map (fun b => some ((b.high - b.low) / b.close))) 5 i
    dollar_vol_20d := rollingApply qmean (sbars.map (fun b => some (b.close * b.volume))) 20 i
    market_return_1d := none
    market_mom_20d := none
    rank_mom_20d := none }

theorem symbolRows_eq_map (sbars : List Bar) :
    symbolRows sbars = (List.range sbars.length).map (symbolRowAt sbars) := rfl

/-- The per-row benchmark join of stage two. -/
def mergeF (bars : List Bar) (mkt : String) (r : FeatureRow) : FeatureRow :=
  { r with
    market_return_1d :=
      (marketFeatsAt ((sortBars bars).filter (fun b => b.symbol = mkt)) r.timestamp).1
    market_mom_20d :=
      (marketFeatsAt ((sortBars bars).filter (fun b => b.symbol = mkt)) r.timestamp).2 }

theorem bfMerged_eq_map (bars : List Bar) (mkt : String) :
    bfMerged bars mkt = (bfBase bars).map (mergeF bars mkt) := rfl

/-- The per-row cross-sectional rank of stage three. -/
def rankF (bars : List Bar) (mkt : String) (r : FeatureRow) : FeatureRow :=
  if r.symbol = mkt then { r with rank_mom_20d := some (1 / 2) }
  else
    { r with rank_mom_20d := r.mom_20d.map (fun m => rankPct m
      (((bfMerged bars mkt).filter
        (fun x => x.symbol ≠ mkt ∧ x.timestamp = r.timestamp)).filterMap (·.mom_20d))) }

theorem bfRanked_eq_map (bars : List Bar) (mkt : String) :
    bfRanked bars mkt = (bfMerged bars mkt).map (rankF bars mkt) := rfl

theorem rankF_symbol (bars : List Bar) (mkt : String) (r : FeatureRow) :
    (rankF bars mkt r).symbol = r.symbol := by
  unfold rankF
  split <;> rfl

theorem rankF_timestamp (bars : List Bar) (mkt : String) (r : FeatureRow) :
    (rankF bars mkt r).timestamp = r.timestamp := by
  unfold rankF
  split <;> rfl

theorem gridRow_defined (grid : ℕ → ℚ) (hi lo cl vo : String → ℕ → ℚ)
    (S : List String) (n : ℕ) (mkt s : String)
    (hS : S.Pairwise (fun a b => a < b))
    (hmkt : mkt ∈ S)
    (hgrid : ∀ j, j < n → ∀ m, m < j → grid m < grid j)
    (i : ℕ) (hin : i < n) :
    featuresDefined (rankF (gridBars grid hi lo cl vo S n) mkt
      (mergeF (gridBars grid hi lo cl vo S n) mkt
        (symbolRowAt (gridSeries grid hi lo cl vo n s) i))) = decide (20 ≤ i) := by
  have hnodup : S.Nodup := List.Pairwise.imp (fun h => ne_of_lt h) hS
  have hmfilter : (sortBars (gridBars grid hi lo cl vo S n)).filter
      (fun b => b.symbol = mkt) = gridSeries grid hi lo cl vo n mkt := by
    rw [sortBars_gridBars grid hi lo cl vo S n hS hgrid]
    exact filter_gridBars grid hi lo cl vo S n mkt hmkt hnodup
  have hgetD : (gridSeries grid hi lo cl vo n s).getD i default =
      gridBar grid hi lo cl vo s i := by
    unfold gridSeries
    exact range_map_getD _ n i default hin
  have hclen : ((gridSeries grid hi lo cl vo n s).map (·.close)).length = n := by
    simp [gridSeries]
  have hslen : (gridSeries grid hi lo cl vo n s).length = n := by
    simp [gridSeries]
  have hmclen : ((gridSeries grid hi lo cl vo n mkt).map (·.close)).length = n := by
    simp [gridSeries]
  have hmf : marketFeatsAt (gridSeries grid hi lo cl vo n mkt) (grid i) =
      (pctChange ((gridSeries grid hi lo cl vo n mkt).map (·.close)) 1 i,
       pctChange ((gridSeries grid hi lo cl vo n mkt).map (·.close)) 20 i) := by
    unfold marketFeatsAt
    rw [tsIndex_gridSeries grid hi lo cl vo n i mkt hin hgrid]
  have hts : (symbolRowAt (gridSeries grid hi lo cl vo n s) i).timestamp = grid i := by
    unfold symbolRowAt
    simp only [hgetD]
    rfl
  have hsym : (symbolRowAt (gridSeries grid hi lo cl vo n s) i).symbol = s := by
    unfold symbolRowAt
    simp only [hgetD]
    rfl
  have hmergesym : (mergeF (gridBars grid hi lo cl vo S n) mkt
      (symbolRowAt (gridSeries grid hi lo cl vo n s) i)).symbol = s := hsym
  have hvol : (rollingApply sampleVar
      ((List.range (gridSeries grid hi lo cl vo n s).length).map
        (fun j => pctChange ((gridSeries grid hi lo cl vo n s).map (·.close)) 1 j)) 20 i).isSome
      ↔ 20 ≤ i := by
    have h := vol_isSome ((gridSeries grid hi lo cl vo n s).map (·.close)) i (by rw [hclen]; exact hin)
    rwa [List.length_map] at h
  have hrange5 : (rollingApply qmean
      ((gridSeries grid hi lo cl vo n s).map (fun b => some ((b.high - b.low) / b.close)))
      5 i).isSome ↔ 5 ≤ i + 1 ∧ i < n := by
    have h := rolling_some_isSome qmean
      ((gridSeries grid hi lo cl vo n s).map (fun b => some ((b.high - b.low) / b.close)))
      (by
        intro o ho
        obtain ⟨b, _, rfl⟩ := List.mem_map.mp ho
        rfl) 5 i
    rwa [List.length_map, hslen] at h
  have h1 : (rankF (gridBars grid hi lo cl vo S n) mkt
      (mergeF (gridBars grid hi lo cl vo S n) mkt
        (symbolRowAt (gridSeries grid hi lo cl vo n s) i))).return_1d = pctChange ((gridSeries grid hi lo cl vo n s).map (·.close)) 1 i := by
    unfold rankF
    split <;> rfl
  have h2 : (rankF (gridBars grid hi lo cl vo S n) mkt
      (mergeF (gridBars grid hi lo cl vo S n) mkt
        (symbolRowAt (gridSeries grid hi lo cl vo n s) i))).return_5d = pctChange ((gridSeries grid hi lo cl vo n s).map (·.close)) 5 i := by
    unfold rankF
    split <;> rfl
  have h3 : (rankF (gridBars grid hi lo cl vo S n) mkt
      (mergeF (gridBars grid hi lo cl vo S n) mkt
        (symbolRowAt (gridSeries grid hi lo cl vo n s) i))).return_10d = pctChange ((gridSeries grid hi lo cl vo n s).map (·.close)) 10 i := by
    unfold rankF
    split <;> rfl
  have h4 : (rankF (gridBars grid hi lo cl vo S n) mkt
      (mergeF (gridBars grid hi lo cl vo S n) mkt
        (symbolRowAt (gridSeries grid hi lo cl vo n s) i))).mom_20d = pctChange ((gridSeries grid hi lo cl vo n s).map (·.close)) 20 i := by
    unfold rankF
    split <;> rfl
  have h5 : (rankF (gridBars grid hi lo cl vo S n) mkt
      (mergeF (gridBars grid hi lo cl vo S n) mkt
        (symbolRowAt (gridSeries grid hi lo cl vo n s) i))).vol_20d = rollingApply sampleVar
      ((List.range (gridSeries grid hi lo cl vo n s).length).map
        (fun j => pctChange ((gridSeries grid hi lo cl vo n s).map (·.close)) 1 j)) 20 i := by
    unfold rankF
    split <;> rfl
  have h6 : (rankF (gridBars grid hi lo cl vo S n) mkt
      (mergeF (gridBars grid hi lo cl vo S n) mkt
        (symbolRowAt (gridSeries grid hi lo cl vo n s) i))).range_5d = rollingApply qmean
      ((gridSeries grid hi lo cl vo n s).map (fun b => some ((b.high - b.low) / b.close))) 5 i := by
    unfold rankF
    split <;> rfl
  have h7 : (rankF (gridBars grid hi lo cl vo S n) mkt
      (mergeF (gridBars grid hi lo cl vo S n) mkt
        (symbolRowAt (gridSeries grid hi lo cl vo n s) i))).market_return_1d = pctChange ((gridSeries grid hi lo cl vo n mkt).map (·.close)) 1 i := by
    have h7a : (rankF (gridBars grid hi lo cl vo S n) mkt
      (mergeF (gridBars grid hi lo cl vo S n) mkt
        (symbolRowAt (gridSeries grid hi lo cl vo n s) i))).market_return_1d =
        (marketFeatsAt ((sortBars (gridBars grid hi lo cl vo S n)).filter
          (fun b => b.symbol = mkt))
          ((gridSeries grid hi lo cl vo n s).getD i default).timestamp).1 := by
      unfold rankF
      split <;> rfl
    rw [h7a, hmfilter, hgetD]
    show (marketFeatsAt (gridSeries grid hi lo cl vo n mkt) (grid i)).1 = _
    rw [hmf]
  have h8 : (rankF (gridBars grid hi lo cl vo S n) mkt
      (mergeF (gridBars grid hi lo cl vo S n) mkt
        (symbolRowAt (gridSeries grid hi lo cl vo n s) i))).market_mom_20d = pctChange ((gridSeries grid hi lo cl vo n mkt).map (·.close)) 20 i := by
    have h8a : (rankF (gridBars grid hi lo cl vo S n) mkt
      (mergeF (gridBars grid hi lo cl vo S n) mkt
        (symbolRowAt (gridSeries grid hi lo cl vo n s) i))).market_mom_20d =
        (marketFeatsAt ((sortBars (gridBars grid hi lo cl vo S n)).filter
          (fun b => b.symbol = mkt))
          ((gridSeries grid hi lo cl vo n s).getD i default).timestamp).2 := by
      unfold rankF
      split <;> rfl
    rw [h8a, hmfilter, hgetD]
    show (marketFeatsAt (gridSeries grid hi lo cl vo n mkt) (grid i)).2 = _
    rw [hmf]
  unfold featuresDefined featOpts
  rw [h1, h2, h3, h4, h5, h6, h7, h8]
  simp only [List.all_cons, List.all_nil, Bool.and_true]
  by_cases hsm : s = mkt
  · have hrk : (rankF (gridBars grid hi lo cl vo S n) mkt
      (mergeF (gridBars grid hi lo cl vo S n) mkt
        (symbolRowAt (gridSeries grid hi lo cl vo n s) i))).rank_mom_20d = some (1 / 2) := by
      unfold rankF
      rw [if_pos (hmergesym.trans hsm)]
    rw [hrk]
    by_cases h20 : 20 ≤ i
    · rw [decide_eq_true h20]
      simp only [Bool.and_eq_true]
      refine ⟨?_, ?_, ?_, ?_, ?_, ?_, ?_, ?_, ?_⟩
      · exact (pctChange_isSome _ _ _).mpr ⟨by omega, by rw [hclen]; exact hin⟩
      · exact (pctChange_isSome _ _ _).mpr ⟨by omega, by rw [hclen]; exact hin⟩
      · exact (pctChange_isSome _ _ _).mpr ⟨by omega, by rw [hclen]; exact hin⟩
      · exact (pctChange_isSome _ _ _).mpr ⟨by omega, by rw [hclen]; exact hin⟩
      · exact hvol.mpr h20
      · exact hrange5.mpr ⟨by omega, hin⟩
      · exact (pctChange_isSome _ _ _).mpr ⟨by omega, by rw [hmclen]; exact hin⟩
      · exact (pctChange_isSome _ _ _).mpr ⟨by omega, by rw [hmclen]; exact hin⟩
      · rfl
    · rw [decide_eq_false h20]
      rw [Bool.eq_false_iff]
      intro hall
      simp only [Bool.and_eq_true] at hall
      exact h20 ((pctChange_isSome _ _ _).mp hall.2.2.2.1).1
  · have hrk : ((rankF (gridBars grid hi lo cl vo S n) mkt
      (mergeF (gridBars grid hi lo cl vo S n) mkt
        (symbolRowAt (gridSeries grid hi lo cl vo n s) i))).rank_mom_20d).isSome =
        (pctChange ((gridSeries grid hi lo cl vo n s).map (·.close)) 20 i).isSome := by
      unfold rankF
      rw [if_neg (fun hC => hsm (hmergesym.symm.trans hC))]
      show ((pctChange ((gridSeries grid hi lo cl vo n s).map (·.close)) 20 i).map _).isSome = _
      rw [Option.isSome_map']
    by_cases h20 : 20 ≤ i
    · rw [decide_eq_true h20]
      simp only [Bool.and_eq_true]
      refine ⟨?_, ?_, ?_, ?_, ?_, ?_, ?_, ?_, ?_⟩
      · exact (pctChange_isSome _ _ _).mpr ⟨by omega, by rw [hclen]; exact hin⟩
      · exact (pctChange_isSome _ _ _).mpr ⟨by omega, by rw [hclen]; exact hin⟩
      · exact (pctChange_isSome _ _ _).mpr ⟨by omega, by rw [hclen]; exact hin⟩
      · exact (pctChange_isSome _ _ _).mpr ⟨by omega, by rw [hclen]; exact hin⟩
      · exact hvol.mpr h20
      · exact hrange5.mpr ⟨by omega, hin⟩
      · exact (pctChange_isSome _ _ _).mpr ⟨by omega, by rw [hmclen]; exact hin⟩
      · exact (pctChange_isSome _ _ _).mpr ⟨by omega, by rw [hmclen]; exact hin⟩
      · rw [hrk]
        exact (pctChange_isSome _ _ _).mpr ⟨h20, by rw [hclen]; exact hin⟩
    · rw [decide_eq_false h20]
      rw [Bool.eq_false_iff]
      intro hall
      simp only [Bool.and_eq_true] at hall
      exact h20 ((pctChange_isSome _ _ _).mp hall.2.2.2.1).1

theorem filter_flatten_single {α β : Type} [DecidableEq α] (F : α → List β) (P : β → Bool)
    (S : List α) (s : α) (hs : s ∈ S) (hS : S.Nodup)
    (hother : ∀ a ∈ S, a ≠ s → (F a).filter P = []) :
    ((S.map F).flatten).filter P = (F s).filter P := by
  induction S with
  | nil => cases hs
  | cons a T ih =>
    rw [List.map_cons, List.flatten_cons, List.filter_append]
    rcases List.mem_cons.mp hs with h | h
    · subst h
      have hT : ((T.map F).flatten).filter P = [] := by
        rw [List.filter_flatten, List.map_map]
        apply List.flatten_eq_nil_iff.mpr
        intro l hl
        obtain ⟨t, ht, rfl⟩ := List.mem_map.mp hl
        exact hother t (List.mem_cons_of_mem _ ht)
          (fun he => (List.nodup_cons.mp hS).1 (he ▸ ht))
      rw [hT, List.append_nil]
    · have hane : a ≠ s := by
        intro he
        subst he
        exact (List.nodup_cons.mp hS).1 h
      rw [hother a (List.mem_cons_self a T) hane, List.nil_append]
      exact ih h (List.nodup_cons.mp hS).2
        (fun t ht hts => hother t (List.mem_cons_of_mem _ ht) hts)

theorem gridRow_symbol (grid : ℕ → ℚ) (hi lo cl vo : String → ℕ → ℚ)
    (S : List String) (n : ℕ) (mkt s : String) (i : ℕ) (hin : i < n) :
    (rankF (gridBars grid hi lo cl vo S n) mkt
      (mergeF (gridBars grid hi lo cl vo S n) mkt
        (symbolRowAt (gridSeries grid hi lo cl vo n s) i))).symbol = s := by
  rw [rankF_symbol]
  show (symbolRowAt (gridSeries grid hi lo cl vo n s) i).symbol = s
  have hgetD : (gridSeries grid hi lo cl vo n s).getD i default =
      gridBar grid hi lo cl vo s i := by
    unfold gridSeries
    exact range_map_getD _ n i default hin
  unfold symbolRowAt
  simp only [hgetD]
  rfl

theorem gridRow_timestamp (grid : ℕ → ℚ) (hi lo cl vo : String → ℕ → ℚ)
    (S : List String) (n : ℕ) (mkt s : String) (i : ℕ) (hin : i < n) :
    (rankF (gridBars grid hi lo cl vo S n) mkt
      (mergeF (gridBars grid hi lo cl vo S n) mkt
        (symbolRowAt (gridSeries grid hi lo cl vo n s) i))).timestamp = grid i := by
  rw [rankF_timestamp]
  show (symbolRowAt (gridSeries grid hi lo cl vo n s) i).timestamp = grid i
  have hgetD : (gridSeries grid hi lo cl vo n s).getD i default =
      gridBar grid hi lo cl vo s i := by
    unfold gridSeries
    exact range_map_getD _ n i default hin
  unfold symbolRowAt
  simp only [hgetD]
  rfl

/-- C2 (amended): for an aligned bar grid (every symbol has the same `n`
strictly increasing timestamps, symbols strictly sorted, benchmark present),
`build_features` emits, for each symbol, exactly the rows with bar index at
least 20 — the first emitted row is the symbol's 21st available bar, the first
one with 20 predecessors, and all earlier rows are dropped because a rolling
feature is undefined. -/
theorem spec_c2_amended (grid : ℕ → ℚ) (hi lo cl vo : String → ℕ → ℚ)
    (S : List String) (n : ℕ) (mkt s : String)
    (hS : S.Pairwise (fun a b => a < b)) (hmkt : mkt ∈ S) (hs : s ∈ S)
    (hgrid : ∀ j, j < n → ∀ m, m < j → grid m < grid j) (hn : 0 < n) :
    ∃ rows, buildFeatures (gridBars grid hi lo cl vo S n) mkt = .ok rows ∧
      (rows.filter (fun r => r.symbol = s)).map (fun r => r.timestamp) =
        ((List.range n).drop 20).map grid := by
  have hnodup : S.Nodup := List.Pairwise.imp (fun h => ne_of_lt h) hS
  have hsort : sortBars (gridBars grid hi lo cl vo S n) = gridBars grid hi lo cl vo S n :=
    sortBars_gridBars grid hi lo cl vo S n hS hgrid
  have hmne : ¬ ((sortBars (gridBars grid hi lo cl vo S n)).filter
      (fun b => b.symbol = mkt) = []) := by
    rw [hsort, filter_gridBars grid hi lo cl vo S n mkt hmkt hnodup]
    unfold gridSeries
    intro hcontra
    have hlen := congrArg List.length hcontra
    simp at hlen
    omega
  have hbase : bfBase (gridBars grid hi lo cl vo S n) =
      (S.map (fun a => (List.range n).map
        (symbolRowAt (gridSeries grid hi lo cl vo n a)))).flatten := by
    unfold bfBase
    rw [hsort, symbols_gridBars grid hi lo cl vo S n hn hnodup]
    congr 1
    apply List.map_congr_left
    intro a ha
    rw [filter_gridBars grid hi lo cl vo S n a ha hnodup, symbolRows_eq_map]
    have hlen : (gridSeries grid hi lo cl vo n a).length = n := by
      simp [gridSeries]
    rw [hlen]
  have hranked : bfRanked (gridBars grid hi lo cl vo S n) mkt =
      (S.map (fun a => (List.range n).map
        (fun i => rankF (gridBars grid hi lo cl vo S n) mkt
        (mergeF (gridBars grid hi lo cl vo S n) mkt
          (symbolRowAt (gridSeries grid hi lo cl vo n a) i))))).flatten := by
    rw [bfRanked_eq_map, bfMerged_eq_map, hbase, List.map_flatten, List.map_flatten,
      List.map_map, List.map_map]
    congr 1
    apply List.map_congr_left
    intro a ha
    show (((List.range n).map (symbolRowAt (gridSeries grid hi lo cl vo n a))).map
        (mergeF (gridBars grid hi lo cl vo S n) mkt)).map
        (rankF (gridBars grid hi lo cl vo S n) mkt) = _
    rw [List.map_map, List.map_map]
    rfl
  refine ⟨(bfRanked (gridBars grid hi lo cl vo S n) mkt).filter featuresDefined, ?_, ?_⟩
  · rw [buildFeatures_eq]
    rw [if_neg hmne]
  · simp only [List.filter_filter]
    rw [hranked]
    have hother : ∀ a ∈ S, a ≠ s →
        (((List.range n).map
          (fun i => rankF (gridBars grid hi lo cl vo S n) mkt
        (mergeF (gridBars grid hi lo cl vo S n) mkt
          (symbolRowAt (gridSeries grid hi lo cl vo n a) i)))).filter
          (fun r => decide (r.symbol = s) && featuresDefined r)) = [] := by
      intro a ha hane
      apply List.filter_eq_nil_iff.mpr
      intro r hr
      obtain ⟨i, himem, rfl⟩ := List.mem_map.mp hr
      intro hP
      have hsymb := (Bool.and_eq_true_iff.mp hP).1
      rw [gridRow_symbol grid hi lo cl vo S n mkt a i (List.mem_range.mp himem)] at hsymb
      exact hane (of_decide_eq_true hsymb)
    rw [filter_flatten_single
      (fun a => (List.range n).map
        (fun i => rankF (gridBars grid hi lo cl vo S n) mkt
        (mergeF (gridBars grid hi lo cl vo S n) mkt
          (symbolRowAt (gridSeries grid hi lo cl vo n a) i))))
      (fun r => decide (r.symbol = s) && featuresDefined r) S s hs hnodup hother]
    rw [List.filter_map]
    have hpoint : ∀ i ∈ List.range n,
        ((fun r => decide (r.symbol = s) && featuresDefined r) ∘
          (fun i => rankF (gridBars grid hi lo cl vo S n) mkt
            (mergeF (gridBars grid hi lo cl vo S n) mkt
              (symbolRowAt (gridSeries grid hi lo cl vo n s) i)))) i = decide (20 ≤ i) := by
      intro i himem
      have hin2 : i < n := List.mem_range.mp himem
      show (decide ((rankF (gridBars grid hi lo cl vo S n) mkt
          (mergeF (gridBars grid hi lo cl vo S n) mkt
            (symbolRowAt (gridSeries grid hi lo cl vo n s) i))).symbol = s)
        && featuresDefined (rankF (gridBars grid hi lo cl vo S n) mkt
          (mergeF (gridBars grid hi lo cl vo S n) mkt
            (symbolRowAt (gridSeries grid hi lo cl vo n s) i)))) = decide (20 ≤ i)
      rw [gridRow_symbol grid hi lo cl vo S n mkt s i hin2]
      rw [gridRow_defined grid hi lo cl vo S n mkt s hS hmkt hgrid i hin2]
      simp
    rw [List.filter_congr hpoint]
    rw [range_filter_ge n 20]
    rw [List.map_map]
    apply List.map_congr_left
    intro i himem
    have hin2 : i < n := List.mem_range.mp (List.mem_of_mem_drop himem)
    show (rankF (gridBars grid hi lo cl vo S n) mkt
        (mergeF (gridBars grid hi lo cl vo S n) mkt
          (symbolRowAt (gridSeries grid hi lo cl vo n s) i))).timestamp = grid i
    exact gridRow_timestamp grid hi lo cl vo S n mkt s i hin2

def c2Grid : ℕ → ℚ := fun i => (i : ℚ)

def c2Hi : String → ℕ → ℚ := fun _ _ => 2

def c2Lo : String → ℕ → ℚ := fun _ _ => 1

def c2Cl : String → ℕ → ℚ := fun _ i => (i : ℚ) + 1

def c2Vo : String → ℕ → ℚ := fun _ _ => 1

def c2Bars : List Bar := gridBars c2Grid c2Hi c2Lo c2Cl c2Vo ["AAA", "SPY"] 21

/-- C2 counterexample: on a 21-bar aligned grid (timestamps 0..20 for both the
symbol and the benchmark), the emitted feature rows for the symbol are exactly
the one at timestamp 20 — the 21st available bar.  The 20th available bar
(timestamp 19) is dropped, refuting the claim that the first emitted row is the
20th bar: `pct_change(20)` needs 20 predecessors, so the first defined row is
the 21st. -/
theorem spec_c2_counterexample :
    (match buildFeatures c2Bars "SPY" with
      | .ok rows => (rows.filter (fun r => r.symbol = "AAA")).map (fun r => r.timestamp)
      | .error _ => []) = [(20 : ℚ)] ∧ ((20 : ℚ) ≠ 19) := by
  constructor
  · with_unfolding_all decide
  · with_unfolding_all decide

/-- C2 witness: the amended theorem instantiated on the concrete 21-bar
two-symbol grid. -/
theorem spec_c2_witness :
    ∃ rows, buildFeatures (gridBars c2Grid c2Hi c2Lo c2Cl c2Vo ["AAA", "SPY"] 21) "SPY" =
        .ok rows ∧
      (rows.filter (fun r => r.symbol = "AAA")).map (fun r => r.timestamp) =
        ((List.range 21).drop 20).map c2Grid :=
  spec_c2_amended c2Grid c2Hi c2Lo c2Cl c2Vo ["AAA", "SPY"] 21 "SPY" "AAA"
    (by with_unfolding_all decide) (by decide) (by decide)
    (by
      intro j hj m hm
      show (m : ℚ) < (j : ℚ)
      exact_mod_cast hm)
    (by decide)
